import Mathlib

set_option autoImplicit false

/-!
Verification of `merge_templates.py`: a tag-preserving CloudFormation
template merger.  The Python program is shallowly embedded: Python values
are `PyObj`, YAML node trees are `YNode`, Python dictionaries are
association lists in insertion order, and each Python function of the
source becomes a Lean function of the same name (`_load_yaml`,
`_merge_section`, `merge_templates`).  The textual YAML layer is
abstracted at the node-tree level: parsing text to a node tree and
emitting a node tree as text are the identity boundary, while
construction (node tree to Python values, including the registered
multi-constructor `_construct_tagged`) and representation (Python values
to node tree, including the registered representer `_represent_tagged`
and the `sort_keys=False` dump option) are modelled faithfully.
-/

/-- A Python value as produced by the loader: `None`, booleans, integers,
strings, lists, dicts (insertion-ordered association lists) and instances
of the `Tagged` class from the source. -/
inductive PyObj where
  | pynone
  | pybool (b : Bool)
  | pyint (n : Int)
  | pystr (s : String)
  | pylist (xs : List PyObj)
  | pydict (entries : List (String × PyObj))
  | tagged (tag : String) (value : PyObj)

/-- A YAML node tree, the input/output of the textual layer that the
embedding abstracts.  `tag = some t` models an application-specific tag
(`!Something`), which the `CfnLoader` routes to `_construct_tagged`;
`tag = none` models a standard, implicitly resolved node.  `quoted` marks
a scalar that is explicitly quoted in the text (a quoted scalar is always
a string).  Mapping keys are restricted to strings, as in every
CloudFormation template. -/
inductive YNode where
  | scalar (tag : Option String) (quoted : Bool) (value : String)
  | seq (tag : Option String) (items : List YNode)
  | ymap (tag : Option String) (entries : List (String × YNode))

/-- Helper for termination proofs: the second component of a pair in a
list is smaller than the list. -/
theorem sizeOf_snd_lt_of_mem {α β : Type} [SizeOf α] [SizeOf β]
    {kv : α × β} {l : List (α × β)} (h : kv ∈ l) : sizeOf kv.2 < sizeOf l := by
  have h1 : sizeOf kv.2 < sizeOf kv := by
    cases kv with
    | mk a b => simp only [Prod.mk.sizeOf_spec]; omega
  exact Nat.lt_trans h1 (List.sizeOf_lt_of_mem h)

/-! ## Python dictionary primitives

A Python `dict` is an insertion-ordered map.  We model it as an
association list; `alGet` is `d.get(k)` / `d[k]`, `alHas` is `k in d`,
`alSet` is `d[k] = v` (update in place, else append at the end, exactly
Python's insertion-order behaviour), `alSetdefault` is
`d.setdefault(k, v)` (insert at the end only when absent). -/

def alGet {α : Type} : List (String × α) → String → Option α
  | [], _ => none
  | (k, v) :: rest, key => if k = key then some v else alGet rest key

def alHas {α : Type} (l : List (String × α)) (key : String) : Bool :=
  (alGet l key).isSome

def alSet {α : Type} : List (String × α) → String → α → List (String × α)
  | [], key, v => [(key, v)]
  | (k, w) :: rest, key, v =>
    if k = key then (k, v) :: rest else (k, w) :: alSet rest key v

def alSetdefault {α : Type} (l : List (String × α)) (key : String) (v : α) :
    List (String × α) :=
  if alHas l key then l else l ++ [(key, v)]

/-- The keys of a dictionary, in insertion order. -/
def alKeys {α : Type} (l : List (String × α)) : List String := l.map (·.1)

/-- Substring test on character lists, modelling Python's `needle in hay`
for strings: `isSubAt` tests a prefix match, `subChars` scans all
positions. -/
def isSubAt : List Char → List Char → Bool
  | [], _ => true
  | _ :: _, [] => false
  | a :: as, b :: bs => a = b && isSubAt as bs

def subChars : List Char → List Char → Bool
  | n, [] => n.isEmpty
  | n, b :: hs => isSubAt n (b :: hs) || subChars n hs

/-- Python's `key in obj` for the object shapes that can occur as a
section value: substring test for `str`, element equality for `list`
(a non-string element never equals a string key), key lookup for `dict`;
any other shape raises `TypeError` (`none`). -/
def pyContains (v : PyObj) (key : String) : Option Bool :=
  match v with
  | .pystr s => some (subChars key.toList s.toList)
  | .pylist xs =>
      some (xs.any (fun x => match x with | .pystr s => s = key | _ => false))
  | .pydict es => some (alHas es key)
  | _ => none

/-- Python's `obj[key] = item`: succeeds only on a dict, anything else
raises `TypeError` (`none`). -/
def pySetItem (v : PyObj) (key : String) (item : PyObj) : Option PyObj :=
  match v with
  | .pydict es => some (.pydict (alSet es key item))
  | _ => none

/-- Python truthiness, as used by `yaml.load(handle) or {}` in
`_load_yaml`. -/
def pyTruthy : PyObj → Bool
  | .pynone => false
  | .pybool b => b
  | .pyint n => n != 0
  | .pystr s => s != ""
  | .pylist xs => !xs.isEmpty
  | .pydict es => !es.isEmpty
  | .tagged _ _ => true

/-- Python's `isinstance(v, dict)`. -/
def isPydict : PyObj → Bool
  | .pydict _ => true
  | _ => false

/-! ## Errors

Every failure the source raises is a `ValueError` with an f-string
message; we model the error value together with the exact message text,
and also the `TypeError`s Python itself would raise on type-confused
operations (their message text is not modelled). -/

/-- Message of the `ValueError` raised by `_load_yaml`
(`f"{path} must contain a YAML mapping"`) — the spec's LoadError. -/
def loadErrorMsg (path : String) : String :=
  s!"{path} must contain a YAML mapping"

/-- Message of the `ValueError` raised by `_merge_section` on a
non-mapping section (`f"{path} section {section} must be a mapping"`) —
the spec's SectionTypeError. -/
def sectionTypeMsg (path sect : String) : String :=
  s!"{path} section {sect} must be a mapping"

/-- Message of the `ValueError` raised by `_merge_section` on a duplicate
item name (`f"Duplicate {section} key {key} in {path}"`) — the spec's
DuplicateKeyError. -/
def duplicateKeyMsg (sect key path : String) : String :=
  s!"Duplicate {sect} key {key} in {path}"

inductive PyErr where
  | valueError (msg : String)
  | typeError
deriving DecidableEq


/-! ## Scalar resolution and rendering

`CfnLoader` is a `yaml.SafeLoader`, which resolves plain (unquoted,
untagged) scalars to `None` / booleans / integers / strings.  We model
the fragment of the YAML 1.1 core schema needed here (null, bool,
decimal int); floats, timestamps and the sexagesimal/base-n integer
forms are outside the scope of every claim and resolve to strings. -/

/-- Null and boolean plain-scalar forms recognised by the SafeLoader
resolver. -/
def specialScalar? (s : String) : Option PyObj :=
  if s = "" ∨ s = "~" ∨ s = "null" ∨ s = "Null" ∨ s = "NULL" then
    some .pynone
  else if s = "true" ∨ s = "True" ∨ s = "TRUE" then some (.pybool true)
  else if s = "false" ∨ s = "False" ∨ s = "FALSE" then some (.pybool false)
  else none

/-- Value of a little-endian list of decimal digit characters. -/
def digitsValRev : List Char → Nat
  | [] => 0
  | c :: cs => (c.toNat - 48) + 10 * digitsValRev cs

/-- Decimal integer literal parse (optional leading minus, then digits),
the decimal fragment of the SafeLoader int resolver. -/
def intLit? (s : String) : Option Int :=
  match s.toList with
  | [] => none
  | c :: rest =>
    if c = '-' then
      if !rest.isEmpty && rest.all Char.isDigit then
        some (-(digitsValRev rest.reverse : Int))
      else none
    else if (c :: rest).all Char.isDigit then
      some ((digitsValRev (c :: rest).reverse : Int))
    else none

/-- Plain-scalar resolution of the SafeLoader. -/
def resolveScalar (s : String) : PyObj :=
  match specialScalar? s with
  | some v => v
  | none =>
    match intLit? s with
    | some i => .pyint i
    | none => .pystr s

/-- The decimal digit character for `n < 10`. -/
def digitChar (n : Nat) : Char :=
  match n with
  | 0 => '0' | 1 => '1' | 2 => '2' | 3 => '3' | 4 => '4'
  | 5 => '5' | 6 => '6' | 7 => '7' | 8 => '8' | _ => '9'

/-- Little-endian decimal digits of a natural number. -/
def natDigitsRev (n : Nat) : List Char :=
  if h : n < 10 then [digitChar n]
  else digitChar (n % 10) :: natDigitsRev (n / 10)
decreasing_by exact Nat.div_lt_self (by omega) (by omega)

def renderNat (n : Nat) : String := ⟨(natDigitsRev n).reverse⟩

/-- Decimal rendering of an integer, as both the YAML emitter and
Python's `str()` produce it. -/
def renderInt (i : Int) : String :=
  if i < 0 then "-" ++ renderNat i.natAbs else renderNat i.toNat

/-- Quoting decision of the emitter: a string whose plain form would
resolve to another type is emitted quoted, so that it reloads as a
string. -/
def needsQuote (s : String) : Bool :=
  match resolveScalar s with
  | .pystr _ => false
  | _ => true

/-- Python's `str()` on the payload shapes reachable in
`_represent_tagged` (anything that is neither a `dict` nor a `list`).
Values whose `str()` is an object repr cannot arise from loading and are
collapsed to a placeholder. -/
def pyStr : PyObj → String
  | .pynone => "None"
  | .pybool true => "True"
  | .pybool false => "False"
  | .pyint i => renderInt i
  | .pystr s => s
  | .pylist _ => "<unrepresented>"
  | .pydict _ => "<unrepresented>"
  | .tagged _ _ => "<unrepresented>"

/-! ## Construction: node tree to Python values

`CfnLoader.add_multi_constructor("!", _construct_tagged)` routes every
node whose tag starts with `!` to `_construct_tagged`, which rebuilds the
tag string unchanged (`f"!{tag_suffix}"`) and constructs the payload by
shape: `construct_scalar` (always a string), `construct_sequence`, or
`construct_mapping`.  Untagged nodes get the standard SafeLoader
construction.  `constructMapping` folds `mapping[key] = value` over the
node's entries, which is exactly Python-dict duplicate handling (first
position, last value). -/

mutual

def construct : YNode → PyObj
  | .scalar (some t) _ s => .tagged t (.pystr s)
  | .scalar none quoted s => if quoted then .pystr s else resolveScalar s
  | .seq (some t) xs => .tagged t (.pylist (constructList xs))
  | .seq none xs => .pylist (constructList xs)
  | .ymap (some t) es => .tagged t (.pydict (constructMapping es []))
  | .ymap none es => .pydict (constructMapping es [])

def constructList : List YNode → List PyObj
  | [] => []
  | n :: ns => construct n :: constructList ns

def constructMapping : List (String × YNode) → List (String × PyObj) →
    List (String × PyObj)
  | [], acc => acc
  | (k, v) :: rest, acc => constructMapping rest (alSet acc k (construct v))

end

/-- Stable insertion of a keyed pair into a key-sorted list. -/
def insertPair {α : Type} (kv : String × α) :
    List (String × α) → List (String × α)
  | [] => [kv]
  | kw :: rest =>
    if kv.1 ≤ kw.1 then kv :: kw :: rest else kw :: insertPair kv rest

/-- Stable sort of keyed pairs by key, modelling the alphabetic
re-sorting that `yaml.dump` applies when `sort_keys` is left `True`. -/
def sortPairs {α : Type} : List (String × α) → List (String × α)
  | [] => []
  | kv :: rest => insertPair kv (sortPairs rest)

def sortPairsIf {α : Type} (sortKeys : Bool) (l : List (String × α)) :
    List (String × α) :=
  if sortKeys then sortPairs l else l

/-! ## Representation: Python values to node tree

`CfnDumper.add_representer(Tagged, _represent_tagged)` re-emits a
`Tagged` by payload shape with its stored tag; plain values get the
standard SafeDumper representation.  The `sortKeys` flag is
`yaml.dump`'s `sort_keys` option; the source passes `sort_keys=False`.
(The dumper sorts the items of a mapping before representing them when
`sort_keys` is true; sorting the represented pairs by the same keys
yields the identical node, so the sort is applied after the recursion
here to keep it structural.) -/

mutual

def represent (sortKeys : Bool) : PyObj → YNode
  | .pynone => .scalar none false "null"
  | .pybool true => .scalar none false "true"
  | .pybool false => .scalar none false "false"
  | .pyint i => .scalar none false (renderInt i)
  | .pystr s => .scalar none (needsQuote s) s
  | .pylist xs => .seq none (representList sortKeys xs)
  | .pydict es => .ymap none (sortPairsIf sortKeys (representEntries sortKeys es))
  | .tagged t (.pydict es) =>
      .ymap (some t) (sortPairsIf sortKeys (representEntries sortKeys es))
  | .tagged t (.pylist xs) => .seq (some t) (representList sortKeys xs)
  | .tagged t v => .scalar (some t) false (pyStr v)

def representList (sortKeys : Bool) : List PyObj → List YNode
  | [] => []
  | x :: xs => represent sortKeys x :: representList sortKeys xs

def representEntries (sortKeys : Bool) : List (String × PyObj) →
    List (String × YNode)
  | [] => []
  | (k, v) :: rest => (k, represent sortKeys v) :: representEntries sortKeys rest

end

/-- Boolean membership in a key list. -/
def memb (k : String) : List String → Bool
  | [] => false
  | x :: xs => k = x || memb k xs

/-- Key-uniqueness of an association list, as a boolean. -/
def nodupb : List String → Bool
  | [] => true
  | k :: ks => !(memb k ks) && nodupb ks

/-! ## Well-formed Python values

`wf` characterises the values the loader can produce: dict keys are
unique, and a `Tagged` payload is a string, a list or a dict (exactly
what `_construct_tagged` builds). -/

mutual

def wf : PyObj → Bool
  | .pynone => true
  | .pybool _ => true
  | .pyint _ => true
  | .pystr _ => true
  | .pylist xs => wfList xs
  | .pydict es => nodupb (alKeys es) && wfEntries es
  | .tagged _ (.pystr _) => true
  | .tagged _ (.pylist xs) => wfList xs
  | .tagged _ (.pydict es) => nodupb (alKeys es) && wfEntries es
  | .tagged _ _ => false

def wfList : List PyObj → Bool
  | [] => true
  | x :: xs => wf x && wfList xs

def wfEntries : List (String × PyObj) → Bool
  | [] => true
  | (_, v) :: rest => wf v && wfEntries rest

end

/-! ## Document Loader -/

/-- A loaded document: the Python dict returned by `_load_yaml`. -/
abbrev PyDict := List (String × PyObj)

/-- `_load_yaml(path)`: decode the file's node tree (`none` models an
empty stream, which `yaml.load` returns as `None`), replace any falsy
result by `{}` (the `or {}` in the source), then require a mapping. -/
def _load_yaml (path : String) (doc : Option YNode) : Except PyErr PyDict :=
  let data : PyObj :=
    match doc with
    | none => .pynone
    | some n => construct n
  let data := if pyTruthy data then data else .pydict []
  match data with
  | .pydict es => .ok es
  | _ => .error (.valueError (loadErrorMsg path))

/-! ## Merge Engine -/

/-- The four allow-listed sections, in the fixed order the source
iterates them. -/
def sections : List String := ["Parameters", "Conditions", "Resources", "Outputs"]

/-- The `for key, item in value.items()` loop of `_merge_section`: each
iteration re-reads `dest[section]`, tests `key in dest[section]`, raises
the duplicate-key `ValueError` on a hit, and performs
`dest[section][key] = item` otherwise.  The `none` branches are the
`TypeError`s Python raises when `dest[section]` is not a container or
not assignable (possible because the base's sections are never
type-checked). -/
def mergeItems (dest : PyDict) (sect path : String) :
    List (String × PyObj) → Except PyErr PyDict
  | [] => .ok dest
  | (key, item) :: rest =>
    match alGet dest sect with
    | none => .error .typeError
    | some dsec =>
      match pyContains dsec key with
      | none => .error .typeError
      | some true => .error (.valueError (duplicateKeyMsg sect key path))
      | some false =>
        match pySetItem dsec key item with
        | none => .error .typeError
        | some dsec' => mergeItems (alSet dest sect dsec') sect path rest

/-- `_merge_section(dest, src, section, path)`. -/
def _merge_section (dest src : PyDict) (sect path : String) :
    Except PyErr PyDict :=
  match alGet src sect with
  | none => .ok dest
  | some value =>
    match value with
    | .pydict items =>
        mergeItems (alSetdefault dest sect (.pydict [])) sect path items
    | _ => .error (.valueError (sectionTypeMsg path sect))

/-- The inner `for section in [...]` loop of `merge_templates`. -/
def mergeSections (dest src : PyDict) (path : String) :
    List String → Except PyErr PyDict
  | [] => .ok dest
  | s :: rest =>
    match _merge_section dest src s path with
    | .ok d => mergeSections d src path rest
    | .error e => .error e

/-- The merge engine on loaded documents: fold every fragment, in order,
through the four sections.  This is the spec's
`mergeTemplates(base, fragments)` on in-memory documents. -/
def mergeAll (base : PyDict) : List (String × PyDict) → Except PyErr PyDict
  | [] => .ok base
  | (p, f) :: rest =>
    match mergeSections base f p sections with
    | .ok m => mergeAll m rest
    | .error e => .error e

/-- The fragment loop of `merge_templates`, with each fragment loaded
just before it is merged, as in the source. -/
def mergeLoop (merged : PyDict) :
    List (String × Option YNode) → Except PyErr PyDict
  | [] => .ok merged
  | (p, doc) :: rest =>
    match _load_yaml p doc with
    | .error e => .error e
    | .ok data =>
      match mergeSections merged data p sections with
      | .error e => .error e
      | .ok m => mergeLoop m rest

/-- `merge_templates(base_path, fragment_paths, out_path)`: load the
base, shallow-copy it (`dict(base)` — the identity on the value level),
merge every fragment, and dump the result with `sort_keys=False`.  The
returned node tree is the document written to `out_path`; an error means
the exception propagated before the output file was opened. -/
def merge_templates (basePath : String) (baseDoc : Option YNode)
    (frags : List (String × Option YNode)) : Except PyErr YNode :=
  match _load_yaml basePath baseDoc with
  | .error e => .error e
  | .ok base =>
    match mergeLoop base frags with
    | .error e => .error e
    | .ok merged => .ok (represent false (.pydict merged))

/-- Loading all fragments up front (used to state that the pipeline
equals load-everything-then-merge). -/
def loadFrags : List (String × Option YNode) →
    Except PyErr (List (String × PyDict))
  | [] => .ok []
  | (p, doc) :: rest =>
    match _load_yaml p doc with
    | .error e => .error e
    | .ok d =>
      match loadFrags rest with
      | .error e => .error e
      | .ok ds => .ok ((p, d) :: ds)

/-! ## Statement helpers -/

/-- The entries of a document's section, empty when the section is
absent or not a dict. -/
def sectionEntries (d : PyDict) (s : String) : PyDict :=
  match alGet d s with
  | some (.pydict es) => es
  | _ => []

/-- The item names of a document's section, in declared order. -/
def sectionKeys (d : PyDict) (s : String) : List String :=
  alKeys (sectionEntries d s)

/-- Concatenated section entries of a fragment list, in fragment order. -/
def fragsSection : List (String × PyDict) → String → PyDict
  | [], _ => []
  | f :: rest, s => sectionEntries f.2 s ++ fragsSection rest s

/-- A present section value is a dict (boolean form). -/
def sectOKb : Option PyObj → Bool
  | none => true
  | some (.pydict _) => true
  | some _ => false

/-- Every section of the document, if present, is a dict. -/
def sectionsOKb (d : PyDict) : Bool :=
  sections.all fun s => sectOKb (alGet d s)

/-- Fragment well-formedness: sections are dicts and have unique item
names (what loading from YAML guarantees). -/
def fragsWFb (frags : List (String × PyDict)) : Bool :=
  frags.all fun f =>
    sectionsOKb f.2 && sections.all fun s => nodupb (sectionKeys f.2 s)

/-- Disjointness of two key lists. -/
def disjb (a b : List String) : Bool := a.all fun k => !(memb k b)

/-- Pairwise disjointness of a family of key lists. -/
def pwDisjb : List (List String) → Bool
  | [] => true
  | l :: ls => ls.all (disjb l) && pwDisjb ls

/-- Per-section pairwise disjointness of the base and all fragments. -/
def allDisjb (base : PyDict) (frags : List (String × PyDict)) : Bool :=
  sections.all fun s =>
    pwDisjb (sectionKeys base s :: frags.map fun f => sectionKeys f.2 s)

/-- Collision evidence: fragment `(p, f)` defines item `k` in section
`s`, and so does an earlier source (the base or an earlier fragment). -/
def CollisionAt (base : PyDict) (frags : List (String × PyDict))
    (s k p : String) : Prop :=
  s ∈ sections ∧
    ∃ pre f post, frags = pre ++ (p, f) :: post ∧
      k ∈ sectionKeys f s ∧
      (k ∈ sectionKeys base s ∨ ∃ g ∈ pre, k ∈ sectionKeys g.2 s)

/-! ## Reference-semantics model of the merge

The pure functions above model Python values by value.  Claim-relevant
aliasing — `merged = dict(base)` is a *shallow* copy, so `merged` and the
caller's `base` share the very same section-dict objects — needs a model
with references.  Here a top-level document maps keys to either a heap
reference (`href`, a Python `dict` object) or an immediate value
(`himm`, any non-dict, which the merge code never mutates).  The heap is
a list of dict objects addressed by index.  The functions mirror
`_merge_section` / `merge_templates` line by line; every outcome carries
the final heap, because the caller's objects survive an exception. -/

inductive HVal where
  | href (a : Nat)
  | himm (v : PyObj)

/-- A top-level document under reference semantics. -/
abbrev HDoc := List (String × HVal)

/-- The heap: dict objects addressed by index. -/
abbrev Heap := List PyDict

def heapGet (h : Heap) (a : Nat) : PyDict := h.getD a []

def heapSet (h : Heap) (a : Nat) (c : PyDict) : Heap := h.set a c

/-- The item loop of `_merge_section` under reference semantics: items
are inserted into the *heap object* `dest[section]` refers to — the very
object the caller's base document also refers to.  (The loop iterates a
snapshot of `src[section]`'s items; in every call the program makes,
`src` is a freshly loaded fragment, so its cells are distinct from
`dest`'s and the snapshot is exact.) -/
def mergeItemsHeap (dest : HDoc) (sect path : String) :
    Heap → List (String × PyObj) → Except PyErr HDoc × Heap
  | heap, [] => (.ok dest, heap)
  | heap, (key, item) :: rest =>
    match alGet dest sect with
    | none => (.error .typeError, heap)
    | some (.himm w) =>
      match pyContains w key with
      | none => (.error .typeError, heap)
      | some true => (.error (.valueError (duplicateKeyMsg sect key path)), heap)
      | some false => (.error .typeError, heap)
    | some (.href a) =>
      let c := heapGet heap a
      if alHas c key then
        (.error (.valueError (duplicateKeyMsg sect key path)), heap)
      else mergeItemsHeap dest sect path (heapSet heap a (alSet c key item)) rest

/-- `_merge_section` under reference semantics.  `setdefault` allocates a
fresh empty dict at the end of the heap when the section is absent. -/
def mergeSectionHeap (dest src : HDoc) (sect path : String) (heap : Heap) :
    Except PyErr HDoc × Heap :=
  match alGet src sect with
  | none => (.ok dest, heap)
  | some (.himm _) => (.error (.valueError (sectionTypeMsg path sect)), heap)
  | some (.href aSrc) =>
    let dest' := if alHas dest sect then dest
                 else dest ++ [(sect, .href heap.length)]
    let heap' := if alHas dest sect then heap else heap ++ [[]]
    mergeItemsHeap dest' sect path heap' (heapGet heap' aSrc)

/-- The section loop under reference semantics. -/
def mergeSectionsHeap (dest src : HDoc) (path : String) :
    Heap → List String → Except PyErr HDoc × Heap
  | heap, [] => (.ok dest, heap)
  | heap, s :: rest =>
    match mergeSectionHeap dest src s path heap with
    | (.ok d, h) => mergeSectionsHeap d src path h rest
    | (.error e, h) => (.error e, h)

/-- The fragment loop of `merge_templates` under reference semantics,
starting from `merged = dict(base)`: the copy duplicates only the
key-to-reference pairs, so `merged` is passed as the base document
itself and every referenced dict stays shared with the caller. -/
def mergeFragsHeap (merged : HDoc) :
    Heap → List (String × HDoc) → Except PyErr HDoc × Heap
  | heap, [] => (.ok merged, heap)
  | heap, (p, f) :: rest =>
    match mergeSectionsHeap merged f p heap sections with
    | (.ok m, h) => mergeFragsHeap m h rest
    | (.error e, h) => (.error e, h)

/-! ## Association-list lemmas -/

theorem alGet_alSet_self {α : Type} (l : List (String × α)) (k : String) (v : α) :
    alGet (alSet l k v) k = some v := by
  induction l with
  | nil => simp [alSet, alGet]
  | cons kv rest ih =>
    obtain ⟨k', w⟩ := kv
    by_cases h : k' = k <;> simp [alSet, alGet, h, ih]

theorem alGet_alSet_ne {α : Type} (l : List (String × α)) (k k' : String) (v : α)
    (h : k' ≠ k) : alGet (alSet l k v) k' = alGet l k' := by
  induction l with
  | nil => simp [alSet, alGet, Ne.symm h]
  | cons kv rest ih =>
    obtain ⟨k'', w⟩ := kv
    by_cases h2 : k'' = k
    · subst h2
      simp [alSet, alGet, Ne.symm h]
    · by_cases h3 : k'' = k' <;> simp [alSet, alGet, h2, h3, h, ih]

theorem alSet_of_not_has {α : Type} (l : List (String × α)) (k : String) (v : α)
    (h : alHas l k = false) : alSet l k v = l ++ [(k, v)] := by
  induction l with
  | nil => simp [alSet]
  | cons kv rest ih =>
    obtain ⟨k', w⟩ := kv
    simp [alHas, alGet] at h
    by_cases h2 : k' = k
    · subst h2; simp at h
    · simp [alSet, h2]
      exact ih (by simpa [alHas, alGet, h2] using h)

theorem alSet_alSet_self {α : Type} (l : List (String × α)) (k : String) (v w : α) :
    alSet (alSet l k v) k w = alSet l k w := by
  induction l with
  | nil => simp [alSet]
  | cons kv rest ih =>
    obtain ⟨k', x⟩ := kv
    by_cases h : k' = k <;> simp [alSet, h, ih]

theorem alSet_eq_self {α : Type} (l : List (String × α)) (k : String) (v : α)
    (h : alGet l k = some v) : alSet l k v = l := by
  induction l with
  | nil => simp [alGet] at h
  | cons kv rest ih =>
    obtain ⟨k', w⟩ := kv
    by_cases h2 : k' = k
    · subst h2
      simp [alGet] at h
      simp [alSet, h]
    · simp [alGet, h2] at h
      simp [alSet, h2, ih h]

theorem alGet_append {α : Type} (l₁ l₂ : List (String × α)) (k : String) :
    alGet (l₁ ++ l₂) k =
      match alGet l₁ k with
      | some v => some v
      | none => alGet l₂ k := by
  induction l₁ with
  | nil => simp [alGet]
  | cons kv rest ih =>
    obtain ⟨k', w⟩ := kv
    by_cases h : k' = k <;> simp [alGet, h, ih]

theorem alHas_append {α : Type} (l₁ l₂ : List (String × α)) (k : String) :
    alHas (l₁ ++ l₂) k = (alHas l₁ k || alHas l₂ k) := by
  simp only [alHas, alGet_append]
  cases alGet l₁ k <;> simp

theorem alHas_iff_mem_keys {α : Type} (l : List (String × α)) (k : String) :
    alHas l k = true ↔ k ∈ alKeys l := by
  induction l with
  | nil => simp [alHas, alGet, alKeys]
  | cons kv rest ih =>
    obtain ⟨k', w⟩ := kv
    by_cases h : k' = k
    · subst h
      simp [alHas, alGet, alKeys]
    · have h1 : alHas ((k', w) :: rest) k = alHas rest k := by
        simp [alHas, alGet, h]
      rw [h1, ih]
      simp only [alKeys, List.map_cons, List.mem_cons]
      constructor
      · intro hh
        exact Or.inr hh
      · rintro (hh | hh)
        · exact absurd hh.symm h
        · exact hh

theorem alGet_eq_none_iff {α : Type} (l : List (String × α)) (k : String) :
    alGet l k = none ↔ ¬ k ∈ alKeys l := by
  rw [← alHas_iff_mem_keys]
  simp [alHas]

theorem alKeys_append {α : Type} (l₁ l₂ : List (String × α)) :
    alKeys (l₁ ++ l₂) = alKeys l₁ ++ alKeys l₂ := by
  simp [alKeys]

theorem alGet_mem {α : Type} {l : List (String × α)} {k : String} {v : α}
    (h : alGet l k = some v) : (k, v) ∈ l := by
  induction l with
  | nil => simp [alGet] at h
  | cons kv rest ih =>
    obtain ⟨k', w⟩ := kv
    by_cases h2 : k' = k
    · subst h2
      simp [alGet] at h
      simp [h]
    · simp [alGet, h2] at h
      simp [ih h]

/-! ## Key-list lemmas -/

theorem memb_iff (k : String) (l : List String) : memb k l = true ↔ k ∈ l := by
  induction l with
  | nil => simp [memb]
  | cons x xs ih => simp [memb, ih]

theorem memb_eq_false_iff (k : String) (l : List String) :
    memb k l = false ↔ ¬ k ∈ l := by
  rw [← memb_iff]
  cases memb k l <;> simp

theorem disjb_iff (a b : List String) :
    disjb a b = true ↔ ∀ k ∈ a, ¬ k ∈ b := by
  simp [disjb, List.all_eq_true, memb_eq_false_iff]

theorem disjb_symm {a b : List String} (h : disjb a b = true) :
    disjb b a = true := by
  rw [disjb_iff] at h ⊢
  intro k hk hk2
  exact h k hk2 hk

theorem disjb_append_left (a b c : List String) :
    disjb (a ++ b) c = (disjb a c && disjb b c) := by
  simp [disjb, List.all_append]

theorem pwDisjb_merge_head {a b : List String} {ls : List (List String)}
    (h : pwDisjb (a :: b :: ls) = true) : pwDisjb ((a ++ b) :: ls) = true := by
  simp only [pwDisjb, List.all_cons, Bool.and_eq_true, List.all_eq_true] at h
  obtain ⟨⟨hab, hals⟩, hbls, hpw⟩ := h
  simp only [pwDisjb, Bool.and_eq_true, List.all_eq_true]
  refine ⟨fun l hl => ?_, hpw⟩
  rw [disjb_append_left]
  simp [hals l hl, hbls l hl]

theorem sectionsOKb_iff (d : PyDict) :
    sectionsOKb d = true ↔ ∀ s ∈ sections, sectOKb (alGet d s) = true := by
  simp [sectionsOKb, List.all_eq_true]

theorem sectionEntries_of_get {d : PyDict} {s : String} {es : PyDict}
    (h : alGet d s = some (.pydict es)) : sectionEntries d s = es := by
  simp [sectionEntries, h]

theorem sectionEntries_of_none {d : PyDict} {s : String}
    (h : alGet d s = none) : sectionEntries d s = [] := by
  simp [sectionEntries, h]

/-! ## Merge-engine lemmas: the success path -/

theorem mergeItems_ok (sect path : String) :
    ∀ (items dest d : PyDict),
      alGet dest sect = some (.pydict d) →
      nodupb (alKeys items) = true →
      disjb (alKeys items) (alKeys d) = true →
      mergeItems dest sect path items = .ok (alSet dest sect (.pydict (d ++ items)))
  | [], dest, d, hget, _, _ => by
    simp only [mergeItems, List.append_nil]
    rw [alSet_eq_self dest sect (.pydict d) hget]
  | (key, item) :: rest, dest, d, hget, hnd, hdisj => by
    have hkeys : alKeys ((key, item) :: rest) = key :: alKeys rest := rfl
    rw [hkeys] at hnd hdisj
    simp only [disjb, List.all_cons, Bool.and_eq_true] at hdisj
    obtain ⟨hkd, hrestd⟩ := hdisj
    have hkd' : alHas d key = false := by
      rw [Bool.not_eq_true'] at hkd
      cases h : alHas d key
      · rfl
      · rw [alHas_iff_mem_keys] at h
        rw [memb_eq_false_iff] at hkd
        exact absurd h hkd
    simp only [nodupb, Bool.and_eq_true] at hnd
    obtain ⟨hknr, hndr⟩ := hnd
    have step : mergeItems dest sect path ((key, item) :: rest) =
        mergeItems (alSet dest sect (.pydict (alSet d key item))) sect path rest := by
      simp [mergeItems, hget, pyContains, hkd', pySetItem]
    rw [step]
    have hset : alSet d key item = d ++ [(key, item)] :=
      alSet_of_not_has d key item hkd'
    rw [hset]
    have hget' : alGet (alSet dest sect (.pydict (d ++ [(key, item)]))) sect =
        some (.pydict (d ++ [(key, item)])) := alGet_alSet_self ..
    have hrd : disjb (alKeys rest) (alKeys d) = true := hrestd
    have hdisj' : disjb (alKeys rest) (alKeys (d ++ [(key, item)])) = true := by
      rw [disjb_iff] at hrd ⊢
      intro k hk
      rw [alKeys_append]
      simp only [List.mem_append]
      rintro (hkin | hkin)
      · exact hrd k hk hkin
      · simp [alKeys] at hkin
        rw [Bool.not_eq_true', memb_eq_false_iff] at hknr
        exact hknr (hkin ▸ hk)
    have := mergeItems_ok sect path rest
      (alSet dest sect (.pydict (d ++ [(key, item)]))) (d ++ [(key, item)])
      hget' hndr hdisj'
    rw [this, alSet_alSet_self, List.append_assoc]
    rfl

theorem _merge_section_ok (dest src : PyDict) (s path : String)
    (hdest : sectOKb (alGet dest s) = true)
    (hsrc : sectOKb (alGet src s) = true)
    (hnd : nodupb (sectionKeys src s) = true)
    (hdisj : disjb (sectionKeys src s) (sectionKeys dest s) = true) :
    ∃ d', _merge_section dest src s path = .ok d' ∧
      sectionEntries d' s = sectionEntries dest s ++ sectionEntries src s ∧
      sectOKb (alGet d' s) = true ∧
      (∀ k, k ≠ s → alGet d' k = alGet dest k) := by
  cases hsv : alGet src s with
  | none =>
    refine ⟨dest, ?_, ?_, hdest, fun k _ => rfl⟩
    · simp [_merge_section, hsv]
    · rw [sectionEntries_of_none (d := src) hsv, List.append_nil]
  | some v =>
    cases v with
    | pydict items =>
      have hsrcEntries : sectionEntries src s = items := sectionEntries_of_get hsv
      rw [hsrcEntries]
      unfold sectionKeys at hnd hdisj
      rw [hsrcEntries] at hnd hdisj
      cases hdv : alGet dest s with
      | none =>
        have hdestEntries : sectionEntries dest s = [] := sectionEntries_of_none hdv
        rw [hdestEntries] at hdisj ⊢
        have hhas : alHas dest s = false := by simp [alHas, hdv]
        have hsetd : alSetdefault dest s (.pydict []) = dest ++ [(s, .pydict [])] := by
          simp [alSetdefault, hhas]
        have hget0 : alGet (dest ++ [(s, PyObj.pydict [])]) s =
            some (.pydict []) := by
          rw [alGet_append, hdv]
          simp [alGet]
        have hdisj0 : disjb (alKeys items) (alKeys ([] : PyDict)) = true := by
          rw [disjb_iff]
          intro k _
          simp [alKeys]
        have hrun := mergeItems_ok s path items (dest ++ [(s, PyObj.pydict [])])
          [] hget0 hnd hdisj0
        refine ⟨alSet (dest ++ [(s, PyObj.pydict [])]) s (.pydict ([] ++ items)),
          ?_, ?_, ?_, ?_⟩
        · simp only [_merge_section, hsv, hsetd]
          exact hrun
        · rw [sectionEntries_of_get (alGet_alSet_self ..)]
        · rw [alGet_alSet_self ..]
          rfl
        · intro k hk
          rw [alGet_alSet_ne _ _ _ _ hk, alGet_append]
          cases hdk : alGet dest k with
          | none => simp [hdk, alGet, Ne.symm hk]
          | some w => simp [hdk]
      | some dv =>
        cases dv with
        | pydict d =>
          have hdestEntries : sectionEntries dest s = d := sectionEntries_of_get hdv
          rw [hdestEntries] at hdisj ⊢
          have hhas : alHas dest s = true := by simp [alHas, hdv]
          have hsetd : alSetdefault dest s (.pydict []) = dest := by
            simp [alSetdefault, hhas]
          have hrun := mergeItems_ok s path items dest d hdv hnd hdisj
          refine ⟨alSet dest s (.pydict (d ++ items)), ?_, ?_, ?_, ?_⟩
          · simp only [_merge_section, hsv, hsetd]
            exact hrun
          · exact sectionEntries_of_get (alGet_alSet_self ..)
          · rw [alGet_alSet_self ..]
            rfl
          · intro k hk
            exact alGet_alSet_ne _ _ _ _ hk
        | pynone => simp [sectOKb, hdv] at hdest
        | pybool b => simp [sectOKb, hdv] at hdest
        | pyint n => simp [sectOKb, hdv] at hdest
        | pystr s2 => simp [sectOKb, hdv] at hdest
        | pylist xs => simp [sectOKb, hdv] at hdest
        | tagged t v2 => simp [sectOKb, hdv] at hdest
    | pynone => simp [sectOKb, hsv] at hsrc
    | pybool b => simp [sectOKb, hsv] at hsrc
    | pyint n => simp [sectOKb, hsv] at hsrc
    | pystr s2 => simp [sectOKb, hsv] at hsrc
    | pylist xs => simp [sectOKb, hsv] at hsrc
    | tagged t v2 => simp [sectOKb, hsv] at hsrc

theorem mergeSections_ok (src : PyDict) (path : String) :
    ∀ (ss : List String) (dest : PyDict), ss.Nodup →
      (∀ s ∈ ss, sectOKb (alGet dest s) = true ∧ sectOKb (alGet src s) = true ∧
        nodupb (sectionKeys src s) = true ∧
        disjb (sectionKeys src s) (sectionKeys dest s) = true) →
      ∃ d', mergeSections dest src path ss = .ok d' ∧
        (∀ s ∈ ss, sectionEntries d' s =
            sectionEntries dest s ++ sectionEntries src s ∧
          sectOKb (alGet d' s) = true) ∧
        (∀ k, ¬ k ∈ ss → alGet d' k = alGet dest k)
  | [], dest, _, _ => ⟨dest, by simp [mergeSections], by simp, fun k _ => rfl⟩
  | s :: rest, dest, hnd, hh => by
    have hs := hh s (by simp)
    obtain ⟨d1, hrun1, hent1, hok1, hpres1⟩ :=
      _merge_section_ok dest src s path hs.1 hs.2.1 hs.2.2.1 hs.2.2.2
    rw [List.nodup_cons] at hnd
    have hh' : ∀ s' ∈ rest, sectOKb (alGet d1 s') = true ∧
        sectOKb (alGet src s') = true ∧
        nodupb (sectionKeys src s') = true ∧
        disjb (sectionKeys src s') (sectionKeys d1 s') = true := by
      intro s' hs'
      have hne : s' ≠ s := fun h => hnd.1 (h ▸ hs')
      have hget : alGet d1 s' = alGet dest s' := hpres1 s' hne
      have horig := hh s' (by simp [hs'])
      have hsect : sectionKeys d1 s' = sectionKeys dest s' := by
        unfold sectionKeys sectionEntries
        rw [hget]
      exact ⟨hget ▸ horig.1, horig.2.1, horig.2.2.1, hsect ▸ horig.2.2.2⟩
    obtain ⟨d', hrun', hent', hpres'⟩ :=
      mergeSections_ok src path rest d1 hnd.2 hh'
    refine ⟨d', ?_, ?_, ?_⟩
    · simp [mergeSections, hrun1, hrun']
    · intro s' hs'
      rcases List.mem_cons.mp hs' with hcase | hcase
      · subst hcase
        have hget : alGet d' s' = alGet d1 s' := hpres' s' hnd.1
        have hsect : sectionEntries d' s' = sectionEntries d1 s' := by
          unfold sectionEntries
          rw [hget]
        exact ⟨hsect ▸ hent1, hget ▸ hok1⟩
      · have h1 := (hent' s' hcase).1
        have h2 := (hent' s' hcase).2
        have hne : s' ≠ s := fun h => hnd.1 (h ▸ hcase)
        have hsect : sectionEntries d1 s' = sectionEntries dest s' := by
          unfold sectionEntries
          rw [hpres1 s' hne]
        exact ⟨hsect ▸ h1, h2⟩
    · intro k hk
      rw [List.mem_cons] at hk
      push_neg at hk
      rw [hpres' k hk.2, hpres1 k hk.1]

theorem mergeAll_ok_aux :
    ∀ (frags : List (String × PyDict)) (dest : PyDict),
      sectionsOKb dest = true →
      fragsWFb frags = true →
      (∀ s ∈ sections,
        pwDisjb (sectionKeys dest s :: frags.map fun f => sectionKeys f.2 s) = true) →
      ∃ m, mergeAll dest frags = .ok m ∧
        (∀ s ∈ sections,
          sectionEntries m s = sectionEntries dest s ++ fragsSection frags s) ∧
        (∀ k, ¬ k ∈ sections → alGet m k = alGet dest k) ∧
        sectionsOKb m = true
  | [], dest, hok, _, _ =>
    ⟨dest, by simp [mergeAll], by simp [fragsSection], fun k _ => rfl, hok⟩
  | (p, f) :: rest, dest, hok, hwf, hdisj => by
    have hhead : sectionsOKb f = true ∧
        (∀ s ∈ sections, nodupb (sectionKeys f s) = true) := by
      have h := hwf
      simp only [fragsWFb, List.all_cons, Bool.and_eq_true, List.all_eq_true] at h
      exact ⟨h.1.1, h.1.2⟩
    have hrest : fragsWFb rest = true := by
      simp only [fragsWFb, List.all_cons, Bool.and_eq_true] at hwf
      exact hwf.2
    have hsecnd : sections.Nodup := by decide
    have hper : ∀ s ∈ sections, sectOKb (alGet dest s) = true ∧
        sectOKb (alGet f s) = true ∧ nodupb (sectionKeys f s) = true ∧
        disjb (sectionKeys f s) (sectionKeys dest s) = true := by
      intro s hsin
      have h1 := (sectionsOKb_iff dest).mp hok s hsin
      have h2 := (sectionsOKb_iff f).mp hhead.1 s hsin
      have h3 := hhead.2 s hsin
      have hd := hdisj s hsin
      have hdd : disjb (sectionKeys dest s) (sectionKeys f s) = true := by
        simp only [List.map_cons, pwDisjb, List.all_cons, Bool.and_eq_true] at hd
        exact hd.1.1
      exact ⟨h1, h2, h3, disjb_symm hdd⟩
    obtain ⟨d', hrun, hent, hpres⟩ := mergeSections_ok f p sections dest hsecnd hper
    have hok' : sectionsOKb d' = true := by
      rw [sectionsOKb_iff]
      intro s hsin
      exact (hent s hsin).2
    have hdisj' : ∀ s ∈ sections,
        pwDisjb (sectionKeys d' s :: rest.map fun g => sectionKeys g.2 s) = true := by
      intro s hsin
      have hKeys : sectionKeys d' s = sectionKeys dest s ++ sectionKeys f s := by
        unfold sectionKeys
        rw [(hent s hsin).1, alKeys_append]
      rw [hKeys]
      have hd := hdisj s hsin
      simp only [List.map_cons] at hd
      exact pwDisjb_merge_head hd
    obtain ⟨m, hrunm, hentm, hpresm, hokm⟩ := mergeAll_ok_aux rest d' hok' hrest hdisj'
    refine ⟨m, ?_, ?_, ?_, hokm⟩
    · simp [mergeAll, hrun, hrunm]
    · intro s hsin
      rw [hentm s hsin, (hent s hsin).1]
      simp [fragsSection, List.append_assoc]
    · intro k hk
      rw [hpresm k hk, hpres k hk]

/-! ## Merge-engine lemmas: the duplicate-key path -/

theorem disjb_eq_false_iff (a b : List String) :
    disjb a b = false ↔ ∃ k ∈ a, k ∈ b := by
  rw [← Bool.not_eq_true, disjb_iff]
  push_neg
  simp

theorem disjb_false_symm {a b : List String} (h : disjb a b = false) :
    disjb b a = false := by
  rw [disjb_eq_false_iff] at h ⊢
  obtain ⟨k, h1, h2⟩ := h
  exact ⟨k, h2, h1⟩

theorem mergeItems_err (sect path : String) :
    ∀ (items dest d : PyDict),
      alGet dest sect = some (.pydict d) →
      nodupb (alKeys items) = true →
      disjb (alKeys items) (alKeys d) = false →
      ∃ k, k ∈ alKeys items ∧ k ∈ alKeys d ∧
        mergeItems dest sect path items =
          .error (.valueError (duplicateKeyMsg sect k path))
  | [], dest, d, _, _, hdisj => by
    rw [disjb_eq_false_iff] at hdisj
    simp [alKeys] at hdisj
  | (key, item) :: rest, dest, d, hget, hnd, hdisj => by
    simp only [nodupb, Bool.and_eq_true] at hnd
    obtain ⟨hknr, hndr⟩ := hnd
    cases hkd : alHas d key with
    | true =>
      refine ⟨key, by simp [alKeys], (alHas_iff_mem_keys d key).mp hkd, ?_⟩
      simp [mergeItems, hget, pyContains, hkd]
    | false =>
      have hstep : mergeItems dest sect path ((key, item) :: rest) =
          mergeItems (alSet dest sect (.pydict (alSet d key item))) sect path rest := by
        simp [mergeItems, hget, pyContains, hkd, pySetItem]
      have hset : alSet d key item = d ++ [(key, item)] :=
        alSet_of_not_has d key item hkd
      have hget' : alGet (alSet dest sect (.pydict (d ++ [(key, item)]))) sect =
          some (.pydict (d ++ [(key, item)])) := alGet_alSet_self ..
      have hdisj' : disjb (alKeys rest) (alKeys (d ++ [(key, item)])) = false := by
        rw [disjb_eq_false_iff]
        rw [disjb_eq_false_iff] at hdisj
        obtain ⟨k, hk1, hk2⟩ := hdisj
        have hkne : k ∈ alKeys rest := by
          rcases (by simpa [alKeys] using hk1 :
              k = key ∨ k ∈ alKeys rest) with hcase | hcase
          · exfalso
            rw [hcase] at hk2
            rw [← alHas_iff_mem_keys] at hk2
            simp [hk2] at hkd
          · exact hcase
        refine ⟨k, hkne, ?_⟩
        rw [alKeys_append]
        simp [hk2]
      obtain ⟨k, hk1, hk2, hrun⟩ := mergeItems_err sect path rest
        (alSet dest sect (.pydict (d ++ [(key, item)]))) (d ++ [(key, item)])
        hget' hndr hdisj'
      have hkmem : k ∈ alKeys ((key, item) :: rest) := by
        simp only [alKeys, List.map_cons, List.mem_cons]
        exact Or.inr (by simpa [alKeys] using hk1)
      refine ⟨k, hkmem, ?_, by rw [hstep, hset]; exact hrun⟩
      rw [alKeys_append] at hk2
      rcases List.mem_append.mp hk2 with hcase | hcase
      · exact hcase
      · exfalso
        simp [alKeys] at hcase
        rw [Bool.not_eq_true', memb_eq_false_iff] at hknr
        exact hknr (hcase ▸ hk1)

theorem _merge_section_err (dest src : PyDict) (s path : String)
    (hdest : sectOKb (alGet dest s) = true)
    (hsrc : sectOKb (alGet src s) = true)
    (hnd : nodupb (sectionKeys src s) = true)
    (hdisj : disjb (sectionKeys src s) (sectionKeys dest s) = false) :
    ∃ k, k ∈ sectionKeys src s ∧ k ∈ sectionKeys dest s ∧
      _merge_section dest src s path =
        .error (.valueError (duplicateKeyMsg s k path)) := by
  have hdisj0 := hdisj
  rw [disjb_eq_false_iff] at hdisj0
  obtain ⟨k0, hk0s, hk0d⟩ := hdisj0
  cases hsv : alGet src s with
  | none =>
    rw [show sectionKeys src s = [] from by
      unfold sectionKeys
      rw [sectionEntries_of_none hsv]
      rfl] at hk0s
    exact absurd hk0s (List.not_mem_nil k0)
  | some v =>
    cases v with
    | pydict items =>
      have hsrcEntries : sectionEntries src s = items := sectionEntries_of_get hsv
      cases hdv : alGet dest s with
      | none =>
        rw [show sectionKeys dest s = [] from by
          unfold sectionKeys
          rw [sectionEntries_of_none hdv]
          rfl] at hk0d
        exact absurd hk0d (List.not_mem_nil k0)
      | some dv =>
        cases dv with
        | pydict d =>
          have hdestEntries : sectionEntries dest s = d := sectionEntries_of_get hdv
          have hhas : alHas dest s = true := by simp [alHas, hdv]
          have hsetd : alSetdefault dest s (.pydict []) = dest := by
            simp [alSetdefault, hhas]
          have hnd' : nodupb (alKeys items) = true := by
            unfold sectionKeys at hnd
            rw [hsrcEntries] at hnd
            exact hnd
          have hdisj' : disjb (alKeys items) (alKeys d) = false := by
            unfold sectionKeys at hdisj
            rw [hsrcEntries, hdestEntries] at hdisj
            exact hdisj
          obtain ⟨k, hk1, hk2, hrun⟩ :=
            mergeItems_err s path items dest d hdv hnd' hdisj'
          refine ⟨k, ?_, ?_, ?_⟩
          · unfold sectionKeys
            rw [hsrcEntries]
            exact hk1
          · unfold sectionKeys
            rw [hdestEntries]
            exact hk2
          · simp only [_merge_section, hsv, hsetd]
            exact hrun
        | pynone => simp [sectOKb, hdv] at hdest
        | pybool b => simp [sectOKb, hdv] at hdest
        | pyint n => simp [sectOKb, hdv] at hdest
        | pystr s2 => simp [sectOKb, hdv] at hdest
        | pylist xs => simp [sectOKb, hdv] at hdest
        | tagged t v2 => simp [sectOKb, hdv] at hdest
    | pynone => simp [sectOKb, hsv] at hsrc
    | pybool b => simp [sectOKb, hsv] at hsrc
    | pyint n => simp [sectOKb, hsv] at hsrc
    | pystr s2 => simp [sectOKb, hsv] at hsrc
    | pylist xs => simp [sectOKb, hsv] at hsrc
    | tagged t v2 => simp [sectOKb, hsv] at hsrc

theorem mergeSections_err (src : PyDict) (path : String) :
    ∀ (ss : List String) (dest : PyDict), ss.Nodup →
      (∀ s ∈ ss, sectOKb (alGet dest s) = true ∧ sectOKb (alGet src s) = true ∧
        nodupb (sectionKeys src s) = true) →
      (∃ s ∈ ss, disjb (sectionKeys src s) (sectionKeys dest s) = false) →
      ∃ s k, s ∈ ss ∧ k ∈ sectionKeys src s ∧ k ∈ sectionKeys dest s ∧
        mergeSections dest src path ss =
          .error (.valueError (duplicateKeyMsg s k path))
  | [], dest, _, _, hcol => by
    obtain ⟨s, hs, _⟩ := hcol
    exact absurd hs (List.not_mem_nil s)
  | s :: rest, dest, hnd, hh, hcol => by
    rw [List.nodup_cons] at hnd
    have hs := hh s (by simp)
    cases hdj : disjb (sectionKeys src s) (sectionKeys dest s) with
    | false =>
      obtain ⟨k, hk1, hk2, hrun⟩ :=
        _merge_section_err dest src s path hs.1 hs.2.1 hs.2.2 hdj
      exact ⟨s, k, by simp, hk1, hk2, by simp [mergeSections, hrun]⟩
    | true =>
      obtain ⟨d1, hrun1, hent1, hok1, hpres1⟩ :=
        _merge_section_ok dest src s path hs.1 hs.2.1 hs.2.2 hdj
      have hkeys1 : ∀ s' ∈ rest, sectionKeys d1 s' = sectionKeys dest s' := by
        intro s' hs'
        have hne : s' ≠ s := fun h => hnd.1 (h ▸ hs')
        unfold sectionKeys sectionEntries
        rw [hpres1 s' hne]
      have hh' : ∀ s' ∈ rest, sectOKb (alGet d1 s') = true ∧
          sectOKb (alGet src s') = true ∧ nodupb (sectionKeys src s') = true := by
        intro s' hs'
        have hne : s' ≠ s := fun h => hnd.1 (h ▸ hs')
        have horig := hh s' (by simp [hs'])
        exact ⟨(hpres1 s' hne) ▸ horig.1, horig.2.1, horig.2.2⟩
      have hcol' : ∃ s' ∈ rest, disjb (sectionKeys src s') (sectionKeys d1 s') = false := by
        obtain ⟨s0, hs0, hdj0⟩ := hcol
        rcases List.mem_cons.mp hs0 with hcase | hcase
        · subst hcase
          rw [hdj0] at hdj
          exact absurd hdj (by simp)
        · exact ⟨s0, hcase, by rw [hkeys1 s0 hcase]; exact hdj0⟩
      obtain ⟨s', k, hsin, hk1, hk2, hrun'⟩ :=
        mergeSections_err src path rest d1 hnd.2 hh' hcol'
      refine ⟨s', k, by simp [hsin], hk1, ?_, ?_⟩
      · rw [← hkeys1 s' hsin]
        exact hk2
      · simp [mergeSections, hrun1, hrun']

theorem pwDisjb_cons_iff (a b : List String) (ls : List (List String)) :
    pwDisjb (a :: b :: ls) = true ↔
      (disjb a b = true ∧ pwDisjb ((a ++ b) :: ls) = true) := by
  simp only [pwDisjb, List.all_cons, Bool.and_eq_true, List.all_eq_true,
    disjb_append_left]
  constructor
  · rintro ⟨⟨h1, h2⟩, h3, h4⟩
    exact ⟨h1, fun l hl => by simp [h2 l hl, h3 l hl], h4⟩
  · rintro ⟨h1, h2, h3⟩
    refine ⟨⟨h1, fun l hl => ?_⟩, fun l hl => ?_, h3⟩
    · exact (h2 l hl).1
    · exact (h2 l hl).2

theorem allDisjb_iff (base : PyDict) (frags : List (String × PyDict)) :
    allDisjb base frags = true ↔ ∀ s ∈ sections,
      pwDisjb (sectionKeys base s :: frags.map fun f => sectionKeys f.2 s) = true := by
  simp [allDisjb, List.all_eq_true]

theorem allDisjb_eq_false_iff (base : PyDict) (frags : List (String × PyDict)) :
    allDisjb base frags = false ↔ ∃ s ∈ sections,
      pwDisjb (sectionKeys base s :: frags.map fun f => sectionKeys f.2 s) = false := by
  rw [← Bool.not_eq_true, allDisjb_iff]
  push_neg
  simp [Bool.not_eq_true]

theorem mergeAll_err :
    ∀ (frags : List (String × PyDict)) (dest : PyDict),
      sectionsOKb dest = true → fragsWFb frags = true →
      allDisjb dest frags = false →
      ∃ s k p2, CollisionAt dest frags s k p2 ∧
        mergeAll dest frags = .error (.valueError (duplicateKeyMsg s k p2))
  | [], dest, _, _, hdisj => by
    rw [allDisjb_eq_false_iff] at hdisj
    obtain ⟨s, _, hpw⟩ := hdisj
    simp [pwDisjb] at hpw
  | (p, f) :: rest, dest, hok, hwf, hdisj => by
    have hhead : sectionsOKb f = true ∧
        (∀ s ∈ sections, nodupb (sectionKeys f s) = true) := by
      have h := hwf
      simp only [fragsWFb, List.all_cons, Bool.and_eq_true, List.all_eq_true] at h
      exact ⟨h.1.1, h.1.2⟩
    have hrest : fragsWFb rest = true := by
      simp only [fragsWFb, List.all_cons, Bool.and_eq_true] at hwf
      exact hwf.2
    have hsecnd : sections.Nodup := by decide
    by_cases hfi : ∀ s ∈ sections,
        disjb (sectionKeys dest s) (sectionKeys f s) = true
    · -- the head fragment is clean; the collision is further on
      have hper : ∀ s ∈ sections, sectOKb (alGet dest s) = true ∧
          sectOKb (alGet f s) = true ∧ nodupb (sectionKeys f s) = true ∧
          disjb (sectionKeys f s) (sectionKeys dest s) = true := by
        intro s hsin
        exact ⟨(sectionsOKb_iff dest).mp hok s hsin,
          (sectionsOKb_iff f).mp hhead.1 s hsin, hhead.2 s hsin,
          disjb_symm (hfi s hsin)⟩
      obtain ⟨d1, hrun, hent, hpres⟩ := mergeSections_ok f p sections dest hsecnd hper
      have hok1 : sectionsOKb d1 = true := by
        rw [sectionsOKb_iff]
        intro s hsin
        exact (hent s hsin).2
      have hkeys1 : ∀ s ∈ sections,
          sectionKeys d1 s = sectionKeys dest s ++ sectionKeys f s := by
        intro s hsin
        unfold sectionKeys
        rw [(hent s hsin).1, alKeys_append]
      have hdisj1 : allDisjb d1 rest = false := by
        rw [allDisjb_eq_false_iff]
        rw [allDisjb_eq_false_iff] at hdisj
        obtain ⟨s, hsin, hpw⟩ := hdisj
        refine ⟨s, hsin, ?_⟩
        rw [hkeys1 s hsin]
        simp only [List.map_cons] at hpw
        rw [← Bool.not_eq_true] at hpw ⊢
        intro hcontra
        exact hpw ((pwDisjb_cons_iff _ _ _).mpr ⟨hfi s hsin, hcontra⟩)
      obtain ⟨s, k, p2, hcol, hrun2⟩ := mergeAll_err rest d1 hok1 hrest hdisj1
      refine ⟨s, k, p2, ?_, by simp [mergeAll, hrun, hrun2]⟩
      obtain ⟨hsin, pre, f2, post, hsplit, hkf2, hbefore⟩ := hcol
      refine ⟨hsin, (p, f) :: pre, f2, post, by simp [hsplit], hkf2, ?_⟩
      rcases hbefore with hcase | hcase
      · rw [hkeys1 s hsin] at hcase
        rcases List.mem_append.mp hcase with hc | hc
        · exact Or.inl hc
        · exact Or.inr ⟨(p, f), by simp, hc⟩
      · obtain ⟨g, hg, hkg⟩ := hcase
        exact Or.inr ⟨g, by simp [hg], hkg⟩
    · -- the head fragment already collides with the base
      push_neg at hfi
      obtain ⟨s0, hs0, hdj0⟩ := hfi
      have hdj0' : disjb (sectionKeys f s0) (sectionKeys dest s0) = false := by
        cases h : disjb (sectionKeys dest s0) (sectionKeys f s0) with
        | true => exact absurd h hdj0
        | false => exact disjb_false_symm h
      have hh : ∀ s ∈ sections, sectOKb (alGet dest s) = true ∧
          sectOKb (alGet f s) = true ∧ nodupb (sectionKeys f s) = true := by
        intro s hsin
        exact ⟨(sectionsOKb_iff dest).mp hok s hsin,
          (sectionsOKb_iff f).mp hhead.1 s hsin, hhead.2 s hsin⟩
      obtain ⟨s, k, hsin, hk1, hk2, hrun⟩ :=
        mergeSections_err f p sections dest hsecnd hh ⟨s0, hs0, hdj0'⟩
      refine ⟨s, k, p, ?_, by simp [mergeAll, hrun]⟩
      exact ⟨hsin, [], f, rest, rfl, hk1, Or.inl hk2⟩

theorem pwDisjb_pair :
    ∀ (l1 : List (List String)) (x : List String) (l2 : List (List String))
      (y : List String) (l3 : List (List String)),
      pwDisjb (l1 ++ x :: l2 ++ y :: l3) = true → disjb x y = true
  | [], x, l2, y, l3, h => by
    simp only [List.nil_append, pwDisjb, Bool.and_eq_true, List.all_eq_true] at h
    exact h.1 y (by simp)
  | a :: l1, x, l2, y, l3, h => by
    simp only [List.cons_append, pwDisjb, Bool.and_eq_true] at h
    exact pwDisjb_pair l1 x l2 y l3 h.2

theorem allDisjb_false_of_collision {base : PyDict}
    {frags : List (String × PyDict)} {s k p : String}
    (h : CollisionAt base frags s k p) : allDisjb base frags = false := by
  obtain ⟨hsin, pre, f, post, hsplit, hkf, hbefore⟩ := h
  rw [allDisjb_eq_false_iff]
  refine ⟨s, hsin, ?_⟩
  rw [← Bool.not_eq_true]
  intro hpw
  rcases hbefore with hcase | hcase
  · have hL : sectionKeys base s :: List.map (fun f => sectionKeys f.2 s) frags =
        [] ++ sectionKeys base s :: List.map (fun f => sectionKeys f.2 s) pre ++
          sectionKeys f s :: List.map (fun f => sectionKeys f.2 s) post := by
      simp [hsplit]
    rw [hL] at hpw
    have hdj := pwDisjb_pair _ _ _ _ _ hpw
    rw [disjb_iff] at hdj
    exact hdj k hcase hkf
  · obtain ⟨g, hg, hkg⟩ := hcase
    obtain ⟨pre1, pre2, hpre⟩ := List.append_of_mem hg
    have hL : sectionKeys base s :: List.map (fun f => sectionKeys f.2 s) frags =
        (sectionKeys base s :: List.map (fun f => sectionKeys f.2 s) pre1) ++
          sectionKeys g.2 s :: List.map (fun f => sectionKeys f.2 s) pre2 ++
          sectionKeys f s :: List.map (fun f => sectionKeys f.2 s) post := by
      simp [hsplit, hpre]
    rw [hL] at hpw
    have hdj := pwDisjb_pair _ _ _ _ _ hpw
    rw [disjb_iff] at hdj
    exact hdj k hkg hkf

/-! ## Pipeline lemmas -/

theorem mergeLoop_eq_loadFrags :
    ∀ (frags : List (String × Option YNode)) (m r : PyDict),
      mergeLoop m frags = .ok r ↔
        ∃ Fs, loadFrags frags = .ok Fs ∧ mergeAll m Fs = .ok r
  | [], m, r => by
    simp [mergeLoop, loadFrags, mergeAll]
  | (p, doc) :: rest, m, r => by
    cases hload : _load_yaml p doc with
    | error e =>
      simp only [mergeLoop, loadFrags, hload]
      constructor
      · intro h
        exact absurd h (by simp)
      · rintro ⟨Fs, hFs, _⟩
        exact absurd hFs (by simp)
    | ok d =>
      cases hms : mergeSections m d p sections with
      | error e =>
        simp only [mergeLoop, loadFrags, hload, hms]
        constructor
        · intro h
          exact absurd h (by simp)
        · rintro ⟨Fs, hFs, hma⟩
          cases hrest : loadFrags rest with
          | error e2 =>
            rw [hrest] at hFs
            exact absurd hFs (by simp)
          | ok ds =>
            rw [hrest] at hFs
            have : Fs = (p, d) :: ds := by
              have h2 := hFs
              simp at h2
              exact h2.symm
            rw [this] at hma
            simp [mergeAll, hms] at hma
      | ok m1 =>
        simp only [mergeLoop, loadFrags, hload, hms]
        rw [mergeLoop_eq_loadFrags rest m1 r]
        constructor
        · rintro ⟨Fs', hFs', hma⟩
          refine ⟨(p, d) :: Fs', ?_, ?_⟩
          · rw [hFs']
          · simp [mergeAll, hms, hma]
        · rintro ⟨Fs, hFs, hma⟩
          cases hrest : loadFrags rest with
          | error e2 =>
            rw [hrest] at hFs
            exact absurd hFs (by simp)
          | ok ds =>
            rw [hrest] at hFs
            have hFsEq : Fs = (p, d) :: ds := by
              have h2 := hFs
              simp at h2
              exact h2.symm
            rw [hFsEq] at hma
            simp only [mergeAll, hms] at hma
            exact ⟨ds, rfl, hma⟩

/-! ## Frame lemmas: non-section keys -/

/-- Two documents agreeing on the four section keys (they may differ
arbitrarily elsewhere). -/
def sameSections (f g : PyDict) : Prop := ∀ s ∈ sections, alGet f s = alGet g s

/-- Two fragment lists with the same paths whose documents agree on the
four section keys. -/
def sameFrags : List (String × PyDict) → List (String × PyDict) → Prop
  | [], [] => True
  | f :: fs, g :: gs => f.1 = g.1 ∧ sameSections f.2 g.2 ∧ sameFrags fs gs
  | _, _ => False

theorem _merge_section_congr (dest : PyDict) {f g : PyDict} (s path : String)
    (h : alGet f s = alGet g s) :
    _merge_section dest f s path = _merge_section dest g s path := by
  unfold _merge_section
  rw [h]

theorem mergeSections_congr {f g : PyDict} (path : String) :
    ∀ (ss : List String) (dest : PyDict), (∀ s ∈ ss, alGet f s = alGet g s) →
      mergeSections dest f path ss = mergeSections dest g path ss
  | [], dest, _ => rfl
  | s :: rest, dest, h => by
    simp only [mergeSections]
    rw [_merge_section_congr dest s path (h s (by simp))]
    cases _merge_section dest g s path with
    | error e => rfl
    | ok d => exact mergeSections_congr path rest d fun s' hs' => h s' (by simp [hs'])

theorem mergeAll_congr :
    ∀ (frags frags' : List (String × PyDict)), sameFrags frags frags' →
      ∀ dest, mergeAll dest frags = mergeAll dest frags'
  | [], [], _, dest => rfl
  | [], _ :: _, h, _ => absurd h (by simp [sameFrags])
  | _ :: _, [], h, _ => absurd h (by simp [sameFrags])
  | (p, f) :: fs, (q, g) :: gs, h, dest => by
    obtain ⟨hpq, hsame, hrest⟩ := h
    simp only at hpq
    subst hpq
    simp only [mergeAll]
    rw [mergeSections_congr p sections dest fun s hs => hsame s hs]
    cases mergeSections dest g p sections with
    | error e => rfl
    | ok m => exact mergeAll_congr fs gs hrest m

theorem mergeItems_preserves (sect path : String) :
    ∀ (items dest r : PyDict), mergeItems dest sect path items = .ok r →
      ∀ k, k ≠ sect → alGet r k = alGet dest k
  | [], dest, r, h, k, hk => by
    simp only [mergeItems] at h
    cases h
    rfl
  | (key, item) :: rest, dest, r, h, k, hk => by
    simp only [mergeItems] at h
    split at h
    · exact absurd h (by simp)
    · split at h
      · exact absurd h (by simp)
      · exact absurd h (by simp)
      · split at h
        · exact absurd h (by simp)
        · rename_i dsec _ _ _ dsec' _
          have := mergeItems_preserves sect path rest
            (alSet dest sect dsec') r h k hk
          rw [this, alGet_alSet_ne _ _ _ _ hk]

theorem _merge_section_preserves {dest src r : PyDict} {s path : String}
    (h : _merge_section dest src s path = .ok r) :
    ∀ k, k ≠ s → alGet r k = alGet dest k := by
  intro k hk
  unfold _merge_section at h
  cases hsv : alGet src s with
  | none =>
    rw [hsv] at h
    cases h
    rfl
  | some v =>
    rw [hsv] at h
    cases v with
    | pydict items =>
      simp only at h
      have hstep := mergeItems_preserves s path items
        (alSetdefault dest s (.pydict [])) r h k hk
      rw [hstep]
      unfold alSetdefault
      cases hhas : alHas dest s with
      | true => simp
      | false =>
        rw [if_neg (by simp), alGet_append]
        cases hdk : alGet dest k with
        | none => simp [hdk, alGet, Ne.symm hk]
        | some w => simp [hdk]
    | pynone => exact absurd h (by simp)
    | pybool b => exact absurd h (by simp)
    | pyint n => exact absurd h (by simp)
    | pystr s2 => exact absurd h (by simp)
    | pylist xs => exact absurd h (by simp)
    | tagged t v2 => exact absurd h (by simp)

theorem mergeSections_preserves {src : PyDict} {path : String} :
    ∀ (ss : List String) (dest r : PyDict),
      mergeSections dest src path ss = .ok r →
      ∀ k, ¬ k ∈ ss → alGet r k = alGet dest k
  | [], dest, r, h, k, _ => by
    simp only [mergeSections] at h
    cases h
    rfl
  | s :: rest, dest, r, h, k, hk => by
    simp only [mergeSections] at h
    cases hms : _merge_section dest src s path with
    | error e => rw [hms] at h; exact absurd h (by simp)
    | ok d =>
      rw [hms] at h
      rw [List.mem_cons] at hk
      push_neg at hk
      rw [mergeSections_preserves rest d r h k hk.2]
      exact _merge_section_preserves hms k hk.1

theorem mergeAll_preserves :
    ∀ (frags : List (String × PyDict)) (dest m : PyDict),
      mergeAll dest frags = .ok m →
      ∀ k, ¬ k ∈ sections → alGet m k = alGet dest k
  | [], dest, m, h, k, _ => by
    simp only [mergeAll] at h
    cases h
    rfl
  | (p, f) :: rest, dest, m, h, k, hk => by
    simp only [mergeAll] at h
    cases hms : mergeSections dest f p sections with
    | error e => rw [hms] at h; exact absurd h (by simp)
    | ok d =>
      rw [hms] at h
      rw [mergeAll_preserves rest d m h k hk]
      exact mergeSections_preserves sections dest d hms k hk

/-! ## Scalar round-trip lemmas -/

theorem digitChar_toNat (n : Nat) (h : n < 10) : (digitChar n).toNat - 48 = n := by
  interval_cases n <;> decide

theorem digitChar_isDigit (n : Nat) (h : n < 10) :
    (digitChar n).isDigit = true := by
  interval_cases n <;> decide

theorem digitsValRev_natDigitsRev : ∀ n : Nat,
    digitsValRev (natDigitsRev n) = n
  | n => by
    unfold natDigitsRev
    by_cases h : n < 10
    · simp [h, digitsValRev, digitChar_toNat n h]
    · rw [dif_neg h]
      simp only [digitsValRev]
      rw [digitsValRev_natDigitsRev (n / 10),
        digitChar_toNat (n % 10) (Nat.mod_lt _ (by omega))]
      omega
decreasing_by exact Nat.div_lt_self (by omega) (by omega)

theorem natDigitsRev_all_digits : ∀ n : Nat,
    (natDigitsRev n).all Char.isDigit = true
  | n => by
    unfold natDigitsRev
    by_cases h : n < 10
    · simp [h, digitChar_isDigit n h]
    · rw [dif_neg h]
      simp only [List.all_cons, Bool.and_eq_true]
      exact ⟨digitChar_isDigit (n % 10) (Nat.mod_lt _ (by omega)),
        natDigitsRev_all_digits (n / 10)⟩
decreasing_by exact Nat.div_lt_self (by omega) (by omega)

theorem natDigitsRev_ne_nil (n : Nat) : natDigitsRev n ≠ [] := by
  unfold natDigitsRev
  by_cases h : n < 10 <;> simp [h]

theorem renderNat_toList (n : Nat) :
    (renderNat n).toList = (natDigitsRev n).reverse := rfl

theorem ne_of_chars {s t : String} (P : Char → Bool)
    (hs : s.toList.all P = true) (c : Char) (hc : c ∈ t.toList)
    (hcd : P c = false) : s ≠ t := by
  intro h
  subst h
  rw [List.all_eq_true] at hs
  rw [hs c hc] at hcd
  exact absurd hcd (by simp)

theorem ne_of_ne_nil {s t : String} (hs : s.toList ≠ [])
    (ht : t.toList = []) : s ≠ t := by
  intro h
  subst h
  exact hs ht

theorem renderInt_toList_nonneg (i : Int) (h : ¬ i < 0) :
    (renderInt i).toList = (natDigitsRev i.toNat).reverse := by
  unfold renderInt
  rw [if_neg h]
  rfl

theorem renderInt_toList_neg (i : Int) (h : i < 0) :
    (renderInt i).toList = '-' :: (natDigitsRev i.natAbs).reverse := by
  unfold renderInt
  rw [if_pos h]
  rfl

theorem all_reverse_digits (l : List Char) (h : l.all Char.isDigit = true)
    (P : Char → Bool) (hP : ∀ c, c.isDigit = true → P c = true) :
    l.reverse.all P = true := by
  rw [List.all_eq_true] at h ⊢
  intro c hc
  exact hP c (h c (List.mem_reverse.mp hc))

theorem renderInt_chars (i : Int) :
    (renderInt i).toList.all (fun c => c == '-' || c.isDigit) = true := by
  by_cases h : i < 0
  · rw [renderInt_toList_neg i h]
    simp only [List.all_cons, Bool.and_eq_true]
    refine ⟨by decide, ?_⟩
    exact all_reverse_digits _ (natDigitsRev_all_digits _) _
      (fun c hc => by simp [hc])
  · rw [renderInt_toList_nonneg i h]
    exact all_reverse_digits _ (natDigitsRev_all_digits _) _
      (fun c hc => by simp [hc])

theorem renderInt_ne_nil (i : Int) : (renderInt i).toList ≠ [] := by
  by_cases h : i < 0
  · rw [renderInt_toList_neg i h]
    simp
  · rw [renderInt_toList_nonneg i h]
    simp [natDigitsRev_ne_nil]

theorem specialScalar?_renderInt (i : Int) :
    specialScalar? (renderInt i) = none := by
  have hall := renderInt_chars i
  have h1 : renderInt i ≠ "" := ne_of_ne_nil (renderInt_ne_nil i) rfl
  have h2 : renderInt i ≠ "~" := ne_of_chars _ hall '~' (by decide) (by decide)
  have h3 : renderInt i ≠ "null" := ne_of_chars _ hall 'u' (by decide) (by decide)
  have h4 : renderInt i ≠ "Null" := ne_of_chars _ hall 'u' (by decide) (by decide)
  have h5 : renderInt i ≠ "NULL" := ne_of_chars _ hall 'U' (by decide) (by decide)
  have h6 : renderInt i ≠ "true" := ne_of_chars _ hall 'r' (by decide) (by decide)
  have h7 : renderInt i ≠ "True" := ne_of_chars _ hall 'r' (by decide) (by decide)
  have h8 : renderInt i ≠ "TRUE" := ne_of_chars _ hall 'R' (by decide) (by decide)
  have h9 : renderInt i ≠ "false" := ne_of_chars _ hall 'a' (by decide) (by decide)
  have h10 : renderInt i ≠ "False" := ne_of_chars _ hall 'a' (by decide) (by decide)
  have h11 : renderInt i ≠ "FALSE" := ne_of_chars _ hall 'A' (by decide) (by decide)
  simp [specialScalar?, h1, h2, h3, h4, h5, h6, h7, h8, h9, h10, h11]

theorem intLit?_renderInt (i : Int) : intLit? (renderInt i) = some i := by
  by_cases h : i < 0
  · have htl := renderInt_toList_neg i h
    have hne : ((natDigitsRev i.natAbs).reverse).isEmpty = false := by
      simp [List.isEmpty_iff, natDigitsRev_ne_nil]
    have hdig : ((natDigitsRev i.natAbs).reverse).all Char.isDigit = true :=
      all_reverse_digits _ (natDigitsRev_all_digits _) _ (fun c hc => hc)
    simp only [intLit?, htl, if_pos rfl, hne, hdig, Bool.not_false, Bool.and_self,
      if_pos]
    rw [List.reverse_reverse, digitsValRev_natDigitsRev]
    congr 1
    omega
  · have htl := renderInt_toList_nonneg i h
    obtain ⟨c, rest, hcr⟩ : ∃ c rest,
        (natDigitsRev i.toNat).reverse = c :: rest := by
      cases hrev : (natDigitsRev i.toNat).reverse with
      | nil =>
        exfalso
        exact natDigitsRev_ne_nil i.toNat (by simpa using hrev)
      | cons c rest => exact ⟨c, rest, rfl⟩
    have hdig : (c :: rest).all Char.isDigit = true := by
      rw [← hcr]
      exact all_reverse_digits _ (natDigitsRev_all_digits _) _ (fun c hc => hc)
    have hcne : ¬ c = '-' := by
      intro hc
      subst hc
      have := (List.all_eq_true.mp hdig) '-' (by simp)
      exact absurd this (by decide)
    simp only [intLit?, htl, hcr, if_neg hcne, hdig, if_pos]
    rw [← hcr, List.reverse_reverse, digitsValRev_natDigitsRev]
    congr 1
    omega

theorem resolveScalar_renderInt (i : Int) :
    resolveScalar (renderInt i) = .pyint i := by
  unfold resolveScalar
  rw [specialScalar?_renderInt, intLit?_renderInt]

theorem specialScalar?_shape {s : String} {v : PyObj}
    (h : specialScalar? s = some v) :
    v = .pynone ∨ v = .pybool true ∨ v = .pybool false := by
  unfold specialScalar? at h
  split_ifs at h
  · exact Or.inl (by injection h with hv; exact hv.symm)
  · exact Or.inr (Or.inl (by injection h with hv; exact hv.symm))
  · exact Or.inr (Or.inr (by injection h with hv; exact hv.symm))

theorem resolveScalar_str {s t : String} (h : resolveScalar s = .pystr t) :
    t = s := by
  unfold resolveScalar at h
  cases hsp : specialScalar? s with
  | some v =>
    rw [hsp] at h
    simp only at h
    rcases specialScalar?_shape hsp with hv | hv | hv <;> (subst hv; cases h)
  | none =>
    rw [hsp] at h
    simp only at h
    cases hint : intLit? s with
    | some i =>
      rw [hint] at h
      cases h
    | none =>
      rw [hint] at h
      injection h with hv
      exact hv.symm

theorem needsQuote_false {s : String} (h : needsQuote s = false) :
    resolveScalar s = .pystr s := by
  unfold needsQuote at h
  cases hr : resolveScalar s with
  | pystr t =>
    have ht := resolveScalar_str hr
    subst ht
    rfl
  | pynone => rw [hr] at h; cases h
  | pybool b => rw [hr] at h; cases h
  | pyint n => rw [hr] at h; cases h
  | pylist xs => rw [hr] at h; cases h
  | pydict es => rw [hr] at h; cases h
  | tagged t v => rw [hr] at h; cases h

/-! ## Well-formedness of constructed values -/

theorem nodupb_iff (l : List String) : nodupb l = true ↔ l.Nodup := by
  induction l with
  | nil => simp [nodupb]
  | cons k ks ih =>
    simp [nodupb, Bool.and_eq_true, Bool.not_eq_true', memb_eq_false_iff, ih,
      List.nodup_cons]

theorem alKeys_alSet_mem {α : Type} (l : List (String × α)) (k : String) (v : α)
    (h : alHas l k = true) : alKeys (alSet l k v) = alKeys l := by
  induction l with
  | nil => simp [alHas, alGet] at h
  | cons kv rest ih =>
    obtain ⟨k', w⟩ := kv
    by_cases h2 : k' = k
    · simp [alSet, h2, alKeys]
    · simp only [alSet, if_neg h2]
      have h3 : alHas rest k = true := by
        simpa [alHas, alGet, h2] using h
      simp only [alKeys, List.map_cons]
      have h4 := ih h3
      simp only [alKeys] at h4
      rw [h4]

theorem nodupb_alSet (l : PyDict) (k : String) (v : PyObj)
    (h : nodupb (alKeys l) = true) : nodupb (alKeys (alSet l k v)) = true := by
  cases hhas : alHas l k with
  | true => rw [alKeys_alSet_mem l k v hhas]; exact h
  | false =>
    rw [alSet_of_not_has l k v hhas, alKeys_append]
    rw [nodupb_iff] at h ⊢
    rw [List.nodup_append]
    refine ⟨h, by simp [alKeys], ?_⟩
    intro a ha hb
    simp [alKeys] at hb
    rw [hb] at ha
    rw [← alHas_iff_mem_keys] at ha
    rw [ha] at hhas
    cases hhas

theorem wfEntries_alSet (l : PyDict) (k : String) (v : PyObj)
    (h : wfEntries l = true) (hv : wf v = true) :
    wfEntries (alSet l k v) = true := by
  induction l with
  | nil => simp [alSet, wfEntries, hv]
  | cons kv rest ih =>
    obtain ⟨k', w⟩ := kv
    simp only [wfEntries, Bool.and_eq_true] at h
    by_cases h2 : k' = k
    · simp only [alSet, if_pos h2]
      simp [wfEntries, hv, h.2]
    · simp only [alSet, if_neg h2]
      simp [wfEntries, h.1, ih h.2]

theorem wf_resolveScalar (s : String) : wf (resolveScalar s) = true := by
  unfold resolveScalar
  cases hsp : specialScalar? s with
  | some v =>
    rcases specialScalar?_shape hsp with hv | hv | hv <;> (subst hv; rfl)
  | none =>
    cases hint : intLit? s with
    | some i => rfl
    | none => rfl

mutual

theorem wf_construct : ∀ n : YNode, wf (construct n) = true
  | .scalar (some t) q s => by simp [construct, wf]
  | .scalar none q s => by
    cases q with
    | true => simp [construct, wf]
    | false => simpa [construct] using wf_resolveScalar s
  | .seq (some t) xs => by
    simp only [construct, wf]
    exact wfList_constructList xs
  | .seq none xs => by
    simp only [construct, wf]
    exact wfList_constructList xs
  | .ymap (some t) es => by
    simp only [construct, wf]
    have h := wf_constructMapping es [] rfl rfl
    simp [h.1, h.2]
  | .ymap none es => by
    simp only [construct, wf]
    have h := wf_constructMapping es [] rfl rfl
    simp [h.1, h.2]

theorem wfList_constructList : ∀ ns : List YNode,
    wfList (constructList ns) = true
  | [] => rfl
  | n :: ns => by
    simp only [constructList, wfList, Bool.and_eq_true]
    exact ⟨wf_construct n, wfList_constructList ns⟩

theorem wf_constructMapping : ∀ (es : List (String × YNode)) (acc : PyDict),
    nodupb (alKeys acc) = true → wfEntries acc = true →
    nodupb (alKeys (constructMapping es acc)) = true ∧
      wfEntries (constructMapping es acc) = true
  | [], acc, h1, h2 => ⟨h1, h2⟩
  | (k, v) :: rest, acc, h1, h2 => by
    simp only [constructMapping]
    exact wf_constructMapping rest (alSet acc k (construct v))
      (nodupb_alSet acc k _ h1) (wfEntries_alSet acc k _ h2 (wf_construct v))

end

/-! ## The serialize-then-load round trip -/

mutual

theorem roundtrip : ∀ v : PyObj, wf v = true →
    construct (represent false v) = v
  | .pynone, _ => by
    simp [represent, construct, resolveScalar, specialScalar?]
  | .pybool true, _ => by
    simp [represent, construct, resolveScalar, specialScalar?]
  | .pybool false, _ => by
    simp [represent, construct, resolveScalar, specialScalar?]
  | .pyint i, _ => by
    simp [represent, construct, resolveScalar_renderInt i]
  | .pystr s, _ => by
    simp only [represent]
    cases hq : needsQuote s with
    | true => simp [construct]
    | false => simp [construct, needsQuote_false hq]
  | .pylist xs, h => by
    simp only [represent, construct]
    rw [roundtripList xs (by simpa [wf] using h)]
  | .pydict es, h => by
    simp only [represent, construct, sortPairsIf, if_neg, Bool.false_eq_true,
      ite_false]
    have hwf : nodupb (alKeys es) = true ∧ wfEntries es = true := by
      simpa [wf, Bool.and_eq_true] using h
    rw [roundtripEntries es [] hwf.2 hwf.1 (fun k _ => rfl)]
    simp
  | .tagged t (.pystr s), _ => by
    simp [represent, construct, pyStr]
  | .tagged t (.pylist xs), h => by
    simp only [represent, construct]
    rw [roundtripList xs (by simpa [wf] using h)]
  | .tagged t (.pydict es), h => by
    simp only [represent, construct, sortPairsIf, if_neg, Bool.false_eq_true,
      ite_false]
    have hwf : nodupb (alKeys es) = true ∧ wfEntries es = true := by
      simpa [wf, Bool.and_eq_true] using h
    rw [roundtripEntries es [] hwf.2 hwf.1 (fun k _ => rfl)]
    simp
  | .tagged t .pynone, h => by simp [wf] at h
  | .tagged t (.pybool b), h => by simp [wf] at h
  | .tagged t (.pyint n), h => by simp [wf] at h
  | .tagged t (.tagged t2 v2), h => by simp [wf] at h

theorem roundtripList : ∀ xs : List PyObj, wfList xs = true →
    constructList (representList false xs) = xs
  | [], _ => rfl
  | x :: xs, h => by
    simp only [wfList, Bool.and_eq_true] at h
    simp only [representList, constructList]
    rw [roundtrip x h.1, roundtripList xs h.2]

theorem roundtripEntries : ∀ (es : List (String × PyObj)) (acc : PyDict),
    wfEntries es = true → nodupb (alKeys es) = true →
    (∀ k ∈ alKeys es, alHas acc k = false) →
    constructMapping (representEntries false es) acc = acc ++ es
  | [], acc, _, _, _ => by simp [representEntries, constructMapping]
  | (k, v) :: rest, acc, hwf, hnd, hacc => by
    simp only [wfEntries, Bool.and_eq_true] at hwf
    have hkk : alKeys ((k, v) :: rest) = k :: alKeys rest := rfl
    rw [hkk] at hnd hacc
    simp only [nodupb, Bool.and_eq_true] at hnd
    obtain ⟨hknr, hndr⟩ := hnd
    rw [Bool.not_eq_true', memb_eq_false_iff] at hknr
    simp only [representEntries, constructMapping]
    rw [roundtrip v hwf.1]
    have hackk : alHas acc k = false := hacc k (by simp)
    rw [alSet_of_not_has acc k v hackk]
    have hdisj : ∀ k' ∈ alKeys rest, alHas (acc ++ [(k, v)]) k' = false := by
      intro k' hk'
      rw [alHas_append, hacc k' (by simp [hk'])]
      have hne : k ≠ k' := fun hh => hknr (hh ▸ hk')
      simp [alHas, alGet, hne]
    rw [roundtripEntries rest (acc ++ [(k, v)]) hwf.2 hndr hdisj]
    simp

end

/-! ## Loader lemmas -/

theorem load_wf (p : String) (n : Option YNode) (es : PyDict)
    (h : _load_yaml p n = .ok es) :
    nodupb (alKeys es) = true ∧ wfEntries es = true := by
  unfold _load_yaml at h
  cases n with
  | none =>
    simp [pyTruthy] at h
    subst h
    exact ⟨rfl, rfl⟩
  | some nn =>
    simp only at h
    cases ht : pyTruthy (construct nn) with
    | false =>
      rw [ht] at h
      simp at h
      subst h
      exact ⟨rfl, rfl⟩
    | true =>
      rw [ht] at h
      simp only [if_pos] at h
      cases hc : construct nn with
      | pydict es2 =>
        rw [hc] at h
        simp at h
        have hwf := wf_construct nn
        rw [hc] at hwf
        simp only [wf, Bool.and_eq_true] at hwf
        rw [← h]
        exact hwf
      | pynone => rw [hc] at h; cases h
      | pybool b => rw [hc] at h; cases h
      | pyint i => rw [hc] at h; cases h
      | pystr s => rw [hc] at h; cases h
      | pylist xs => rw [hc] at h; cases h
      | tagged t v => rw [hc] at h; cases h

theorem load_represented (q : String) (es : PyDict)
    (h1 : nodupb (alKeys es) = true) (h2 : wfEntries es = true) :
    _load_yaml q (some (represent false (.pydict es))) = .ok es := by
  have hc : construct (represent false (.pydict es)) = .pydict es :=
    roundtrip _ (by simp [wf, h1, h2])
  unfold _load_yaml
  simp only [hc]
  by_cases hes : es = []
  · subst hes
    simp [pyTruthy]
  · have ht : pyTruthy (.pydict es) = true := by
      simp [pyTruthy, List.isEmpty_iff, hes]
    simp [ht]

theorem merge_templates_nil (p : String) (n : Option YNode) (B : PyDict)
    (h : _load_yaml p n = .ok B) :
    merge_templates p n [] = .ok (represent false (.pydict B)) := by
  simp [merge_templates, h, mergeLoop]

/-! ## Key-set and lookup corollaries for the merged sections -/

theorem alGet_some_mem_keys {α : Type} {l : List (String × α)} {k : String}
    {v : α} (h : alGet l k = some v) : k ∈ alKeys l := by
  rw [← alHas_iff_mem_keys]
  simp [alHas, h]

theorem mem_fragsSection_keys (k : String) :
    ∀ (frags : List (String × PyDict)) (s : String),
      k ∈ alKeys (fragsSection frags s) ↔
        ∃ f ∈ frags, k ∈ sectionKeys f.2 s
  | [], s => by simp [fragsSection, alKeys]
  | g :: rest, s => by
    simp only [fragsSection, alKeys_append, List.mem_append]
    rw [mem_fragsSection_keys k rest s]
    constructor
    · rintro (hk | ⟨f, hf, hk⟩)
      · exact ⟨g, by simp, hk⟩
      · exact ⟨f, by simp [hf], hk⟩
    · rintro ⟨f, hf, hk⟩
      rcases List.mem_cons.mp hf with hcase | hcase
      · exact Or.inl (hcase ▸ hk)
      · exact Or.inr ⟨f, hcase, hk⟩

theorem alGet_fragsSection (s : String) :
    ∀ (frags : List (String × PyDict)) (k : String) (v : PyObj),
      pwDisjb (frags.map fun f => sectionKeys f.2 s) = true →
      (∃ f ∈ frags, alGet (sectionEntries f.2 s) k = some v) →
      alGet (fragsSection frags s) k = some v
  | [], k, v, _, hex => by
    obtain ⟨f, hf, _⟩ := hex
    exact absurd hf (List.not_mem_nil f)
  | g :: rest, k, v, hpw, hex => by
    simp only [List.map_cons, pwDisjb, Bool.and_eq_true, List.all_eq_true] at hpw
    obtain ⟨f, hf, hv⟩ := hex
    rcases List.mem_cons.mp hf with hcase | hcase
    · subst hcase
      simp only [fragsSection]
      rw [alGet_append, hv]
    · have hkf : k ∈ sectionKeys f.2 s := alGet_some_mem_keys hv
      have hkg : ¬ k ∈ sectionKeys g.2 s := by
        have hdj := hpw.1 (sectionKeys f.2 s)
          (List.mem_map.mpr ⟨f, hcase, rfl⟩)
        rw [disjb_iff] at hdj
        intro hcontra
        exact hdj k hcontra hkf
      have hnone : alGet (sectionEntries g.2 s) k = none := by
        rw [alGet_eq_none_iff]
        exact hkg
      simp only [fragsSection]
      rw [alGet_append, hnone]
      exact alGet_fragsSection s rest k v hpw.2 ⟨f, hcase, hv⟩

theorem pwDisjb_tail {l : List String} {ls : List (List String)}
    (h : pwDisjb (l :: ls) = true) : pwDisjb ls = true := by
  simp only [pwDisjb, Bool.and_eq_true] at h
  exact h.2

theorem pwDisjb_head {l : List String} {ls : List (List String)}
    (h : pwDisjb (l :: ls) = true) : ∀ l' ∈ ls, disjb l l' = true := by
  simp only [pwDisjb, Bool.and_eq_true, List.all_eq_true] at h
  exact h.1

/-! ## Claim theorems -/

/-- C1: for every base document and fragment list whose sections are
mappings with per-section pairwise-disjoint item names, the merge
succeeds and each of the four merged sections is exactly the union of
the base's and every fragment's entries — the key set is the union of
the key sets, and every key is mapped to the identical value it had in
its originating document (the entries are the base's followed by each
fragment's, unmodified). -/
theorem claim1_union_property (base : PyDict) (frags : List (String × PyDict))
    (hb : sectionsOKb base = true) (hw : fragsWFb frags = true)
    (hd : allDisjb base frags = true) :
    ∃ m, mergeAll base frags = .ok m ∧
      ∀ s ∈ sections,
        sectionEntries m s = sectionEntries base s ++ fragsSection frags s ∧
        (∀ k, k ∈ sectionKeys m s ↔
          (k ∈ sectionKeys base s ∨ ∃ f ∈ frags, k ∈ sectionKeys f.2 s)) ∧
        (∀ k v, alGet (sectionEntries base s) k = some v →
          alGet (sectionEntries m s) k = some v) ∧
        (∀ f ∈ frags, ∀ k v, alGet (sectionEntries f.2 s) k = some v →
          alGet (sectionEntries m s) k = some v) := by
  have hd' := (allDisjb_iff base frags).mp hd
  obtain ⟨m, hrun, hent, _, _⟩ := mergeAll_ok_aux frags base hb hw hd'
  refine ⟨m, hrun, fun s hsin => ?_⟩
  have hE := hent s hsin
  refine ⟨hE, ?_, ?_, ?_⟩
  · intro k
    unfold sectionKeys
    rw [hE, alKeys_append, List.mem_append, mem_fragsSection_keys]
    exact Iff.rfl
  · intro k v hv
    rw [hE, alGet_append, hv]
  · intro f hf k v hv
    rw [hE, alGet_append]
    have hkf : k ∈ sectionKeys f.2 s := alGet_some_mem_keys hv
    have hpw := hd' s hsin
    have hnone : alGet (sectionEntries base s) k = none := by
      rw [alGet_eq_none_iff]
      intro hk
      have hdj := pwDisjb_head hpw (sectionKeys f.2 s)
        (List.mem_map.mpr ⟨f, hf, rfl⟩)
      rw [disjb_iff] at hdj
      exact hdj k hk hkf
    rw [hnone]
    exact alGet_fragsSection s frags k v (pwDisjb_tail hpw) ⟨f, hf, hv⟩

/-- Witness for C1 at a concrete base and two fragments. -/
theorem claim1_witness :
    ∃ m, mergeAll [("Resources", PyObj.pydict [("A", PyObj.pystr "x")])]
        [("f1", [("Resources", PyObj.pydict [("Bk", PyObj.pystr "y")])]),
         ("f2", [("Outputs", PyObj.pydict [("O1", PyObj.pystr "z")])])] = .ok m ∧
      ∀ s ∈ sections,
        sectionEntries m s =
          sectionEntries [("Resources", PyObj.pydict [("A", PyObj.pystr "x")])] s ++
            fragsSection
              [("f1", [("Resources", PyObj.pydict [("Bk", PyObj.pystr "y")])]),
               ("f2", [("Outputs", PyObj.pydict [("O1", PyObj.pystr "z")])])] s ∧
        (∀ k, k ∈ sectionKeys m s ↔
          (k ∈ sectionKeys [("Resources", PyObj.pydict [("A", PyObj.pystr "x")])] s ∨
            ∃ f ∈ [("f1", [("Resources", PyObj.pydict [("Bk", PyObj.pystr "y")])]),
                   ("f2", [("Outputs", PyObj.pydict [("O1", PyObj.pystr "z")])])],
              k ∈ sectionKeys f.2 s)) ∧
        (∀ k v, alGet (sectionEntries
            [("Resources", PyObj.pydict [("A", PyObj.pystr "x")])] s) k = some v →
          alGet (sectionEntries m s) k = some v) ∧
        (∀ f ∈ [("f1", [("Resources", PyObj.pydict [("Bk", PyObj.pystr "y")])]),
                ("f2", [("Outputs", PyObj.pydict [("O1", PyObj.pystr "z")])])],
          ∀ k v, alGet (sectionEntries f.2 s) k = some v →
            alGet (sectionEntries m s) k = some v) :=
  claim1_union_property _ _ (by decide) (by decide) (by decide)

/-- C2: if the base and the fragments have mapping sections with unique
item names, and two sources (base vs. a fragment, or an earlier fragment
vs. a later one) both define the same item name in the same section,
then the merge engine fails — no merged document is produced — with a
DuplicateKeyError whose message names a genuinely colliding section,
item name and the later-processed source's path. -/
theorem claim2_duplicate_rejection (base : PyDict)
    (frags : List (String × PyDict))
    (hb : sectionsOKb base = true) (hw : fragsWFb frags = true)
    (hcol : ∃ s k p, CollisionAt base frags s k p) :
    (∀ m, mergeAll base frags ≠ .ok m) ∧
    ∃ s k p, mergeAll base frags =
        .error (.valueError (duplicateKeyMsg s k p)) ∧
      CollisionAt base frags s k p := by
  obtain ⟨s0, k0, p0, hc0⟩ := hcol
  have hfalse : allDisjb base frags = false := allDisjb_false_of_collision hc0
  obtain ⟨s, k, p, hc, herr⟩ := mergeAll_err frags base hb hw hfalse
  refine ⟨fun m hm => ?_, ⟨s, k, p, herr, hc⟩⟩
  rw [herr] at hm
  cases hm

/-- Witness for C2: the base and one fragment both define `A` in
`Resources`. -/
theorem claim2_witness :
    (∀ m, mergeAll [("Resources", PyObj.pydict [("A", PyObj.pystr "1")])]
        [("f1", [("Resources", PyObj.pydict [("A", PyObj.pystr "2")])])] ≠
          .ok m) ∧
    ∃ s k p, mergeAll [("Resources", PyObj.pydict [("A", PyObj.pystr "1")])]
        [("f1", [("Resources", PyObj.pydict [("A", PyObj.pystr "2")])])] =
          .error (.valueError (duplicateKeyMsg s k p)) ∧
      CollisionAt [("Resources", PyObj.pydict [("A", PyObj.pystr "1")])]
        [("f1", [("Resources", PyObj.pydict [("A", PyObj.pystr "2")])])] s k p :=
  claim2_duplicate_rejection _ _ (by decide) (by decide)
    ⟨"Resources", "A", "f1",
      by decide, [], [("Resources", PyObj.pydict [("A", PyObj.pystr "2")])], [],
      rfl, by decide, Or.inl (by decide)⟩

/-- C3 (amended): a *fragment's* present non-mapping section value makes
`_merge_section` fail with a SectionTypeError naming the fragment's path
and the section; the base's sections are never validated (see the
counterexample). -/
theorem claim3_fragment_section_type (dest src : PyDict) (s p : String)
    (v : PyObj) (hv : alGet src s = some v) (hnd : isPydict v = false) :
    _merge_section dest src s p = .error (.valueError (sectionTypeMsg p s)) := by
  unfold _merge_section
  rw [hv]
  cases v with
  | pydict es => simp [isPydict] at hnd
  | pynone => rfl
  | pybool b => rfl
  | pyint n => rfl
  | pystr s2 => rfl
  | pylist xs => rfl
  | tagged t v2 => rfl

/-- Witness for C3's amended statement: a fragment declaring
`Parameters: "not-a-mapping"`. -/
theorem claim3_witness :
    _merge_section [] [("Parameters", PyObj.pystr "not-a-mapping")]
        "Parameters" "f1.yaml" =
      .error (.valueError (sectionTypeMsg "f1.yaml" "Parameters")) :=
  claim3_fragment_section_type _ _ _ _ (PyObj.pystr "not-a-mapping")
    rfl (by decide)

/-- Counterexample to C3 as stated: the claim demands that a non-mapping
section in *any* input document — "the base as well as every fragment" —
fail with a SectionTypeError, but the base's sections are never
type-checked: merging a base whose `Parameters` is the scalar `"x"` with
no fragments succeeds and passes the scalar through to the output. -/
theorem claim3_counterexample :
    merge_templates "base.yaml"
      (some (.ymap none [("Parameters", .scalar none false "x")])) [] =
      .ok (.ymap none [("Parameters", .scalar none false "x")]) := by
  have hload : _load_yaml "base.yaml"
      (some (.ymap none [("Parameters", .scalar none false "x")])) =
      .ok [("Parameters", .pystr "x")] := by
    simp [_load_yaml, construct, constructMapping, alSet, pyTruthy,
      resolveScalar, specialScalar?, intLit?]
  rw [merge_templates_nil _ _ _ hload]
  simp [represent, representEntries, sortPairsIf, needsQuote,
    resolveScalar, specialScalar?, intLit?]

/-- Counterexample to C4 as stated: the claim says the Loader fails
whenever the decoded root is a sequence, the empty document being the
single exception — but `yaml.load(handle) or {}` replaces *every falsy*
root by the empty mapping, so a document whose root is the empty
sequence `[]` loads successfully as the empty mapping instead of
raising. -/
theorem claim4_counterexample :
    _load_yaml "doc.yaml" (some (.seq none [])) = .ok [] := by
  simp [_load_yaml, construct, constructList, pyTruthy]

/-- C4 (amended): the Loader returns the empty mapping for the absent
document and for every *falsy* decoded root (null, false, zero, the
empty string, the empty sequence, the empty mapping); it returns a
truthy mapping unchanged; and it fails — with the LoadError message —
exactly when the decoded root is truthy and not a mapping. -/
theorem claim4_loader_behaviour (p : String) :
    (_load_yaml p none = .ok []) ∧
    (∀ nn, pyTruthy (construct nn) = false → _load_yaml p (some nn) = .ok []) ∧
    (∀ nn es, construct nn = .pydict es → pyTruthy (construct nn) = true →
      _load_yaml p (some nn) = .ok es) ∧
    (∀ nn, pyTruthy (construct nn) = true → isPydict (construct nn) = false →
      _load_yaml p (some nn) = .error (.valueError (loadErrorMsg p))) ∧
    (∀ (n : Option YNode) (e : PyErr), _load_yaml p n = .error e →
      e = .valueError (loadErrorMsg p) ∧
      ∃ nn, n = some nn ∧ pyTruthy (construct nn) = true ∧
        isPydict (construct nn) = false) := by
  refine ⟨by simp [_load_yaml, pyTruthy], fun nn h => ?_, fun nn es hc ht => ?_,
    fun nn ht hp => ?_, fun n e herr => ?_⟩
  · simp [_load_yaml, h]
  · have ht' : pyTruthy (.pydict es) = true := hc ▸ ht
    simp only [_load_yaml]
    rw [hc, if_pos ht']
  · simp only [_load_yaml]
    rw [if_pos ht]
    cases hc : construct nn with
    | pydict es => rw [hc] at hp; simp [isPydict] at hp
    | pynone => rfl
    | pybool b => rfl
    | pyint i => rfl
    | pystr s => rfl
    | pylist xs => rfl
    | tagged t v => rfl
  · cases n with
    | none => simp [_load_yaml, pyTruthy] at herr
    | some nn =>
      simp only [_load_yaml] at herr
      cases ht : pyTruthy (construct nn) with
      | false => rw [ht] at herr; simp at herr
      | true =>
        rw [ht] at herr
        simp only [if_pos] at herr
        cases hc : construct nn with
        | pydict es => rw [hc] at herr; cases herr
        | pynone =>
          rw [hc] at herr
          exact ⟨by cases herr; rfl, nn, rfl, ht, by rw [hc]; rfl⟩
        | pybool b =>
          rw [hc] at herr
          exact ⟨by cases herr; rfl, nn, rfl, ht, by rw [hc]; rfl⟩
        | pyint i =>
          rw [hc] at herr
          exact ⟨by cases herr; rfl, nn, rfl, ht, by rw [hc]; rfl⟩
        | pystr s =>
          rw [hc] at herr
          exact ⟨by cases herr; rfl, nn, rfl, ht, by rw [hc]; rfl⟩
        | pylist xs =>
          rw [hc] at herr
          exact ⟨by cases herr; rfl, nn, rfl, ht, by rw [hc]; rfl⟩
        | tagged t v =>
          rw [hc] at herr
          exact ⟨by cases herr; rfl, nn, rfl, ht, by rw [hc]; rfl⟩

/-- Witness for C4's amended statement: a truthy non-mapping root (a
plain string) is rejected with the LoadError message. -/
theorem claim4_witness :
    _load_yaml "w.yaml" (some (.scalar none true "hello")) =
      .error (.valueError (loadErrorMsg "w.yaml")) :=
  (claim4_loader_behaviour "w.yaml").2.2.2.1 (.scalar none true "hello")
    (by simp [construct]; decide) (by simp [construct]; decide)

/-! ## Serializer order lemmas -/

theorem representEntries_keys (b : Bool) :
    ∀ l : List (String × PyObj), alKeys (representEntries b l) = alKeys l
  | [] => rfl
  | (k, v) :: rest => by
    simp only [representEntries, alKeys, List.map_cons]
    have h := representEntries_keys b rest
    simp only [alKeys] at h
    rw [h]

theorem alGet_representEntries (b : Bool) :
    ∀ (l : List (String × PyObj)) (k : String),
      alGet (representEntries b l) k = (alGet l k).map (represent b)
  | [], k => rfl
  | (k', v) :: rest, k => by
    by_cases h : k' = k <;>
      simp [representEntries, alGet, h, alGet_representEntries b rest k]

/-- C5: for a base and two fragments with well-formed, pairwise-disjoint
sections all containing section `s`, the merged section's key order is
exactly the base's keys, then the first fragment's keys, then the second
fragment's keys; and the dump with `sort_keys=False` emits the top-level
mapping in the merged document's order and the section's mapping node
with exactly those keys in that order, so the insertion order survives
into the output. -/
theorem claim5_order_preservation (base f1 f2 : PyDict) (p1 p2 s : String)
    (hs : s ∈ sections)
    (hb : sectionsOKb base = true)
    (hw : fragsWFb [(p1, f1), (p2, f2)] = true)
    (hd : allDisjb base [(p1, f1), (p2, f2)] = true)
    (hc0 : alHas base s = true) (hc1 : alHas f1 s = true)
    (hc2 : alHas f2 s = true) :
    ∃ m, mergeAll base [(p1, f1), (p2, f2)] = .ok m ∧
      sectionKeys m s =
        sectionKeys base s ++ sectionKeys f1 s ++ sectionKeys f2 s ∧
      represent false (.pydict m) = .ymap none (representEntries false m) ∧
      alKeys (representEntries false m) = alKeys m ∧
      (∀ es, alGet m s = some (.pydict es) →
        alGet (representEntries false m) s =
          some (.ymap none (representEntries false es)) ∧
        alKeys (representEntries false es) = sectionKeys m s) := by
  have hd' := (allDisjb_iff base _).mp hd
  obtain ⟨m, hrun, hent, _, _⟩ := mergeAll_ok_aux [(p1, f1), (p2, f2)] base hb hw hd'
  refine ⟨m, hrun, ?_, by simp [represent, sortPairsIf],
    representEntries_keys false m, fun es hes => ?_⟩
  · unfold sectionKeys
    rw [hent s hs]
    simp [fragsSection, alKeys_append, List.append_assoc]
  · constructor
    · rw [alGet_representEntries false m s, hes]
      simp [represent, sortPairsIf]
    · rw [representEntries_keys false es]
      unfold sectionKeys
      rw [sectionEntries_of_get hes]

/-- Witness for C5 at a concrete base and two fragments sharing the
`Resources` section. -/
theorem claim5_witness :
    ∃ m, mergeAll [("Resources", PyObj.pydict [("A", PyObj.pystr "x")])]
        [("f1", [("Resources", PyObj.pydict [("B", PyObj.pystr "y")])]),
         ("f2", [("Resources", PyObj.pydict [("C", PyObj.pystr "z")])])] = .ok m ∧
      sectionKeys m "Resources" =
        sectionKeys [("Resources", PyObj.pydict [("A", PyObj.pystr "x")])]
          "Resources" ++
        sectionKeys [("Resources", PyObj.pydict [("B", PyObj.pystr "y")])]
          "Resources" ++
        sectionKeys [("Resources", PyObj.pydict [("C", PyObj.pystr "z")])]
          "Resources" ∧
      represent false (.pydict m) = .ymap none (representEntries false m) ∧
      alKeys (representEntries false m) = alKeys m ∧
      (∀ es, alGet m "Resources" = some (.pydict es) →
        alGet (representEntries false m) "Resources" =
          some (.ymap none (representEntries false es)) ∧
        alKeys (representEntries false es) = sectionKeys m "Resources") :=
  claim5_order_preservation _ _ _ "f1" "f2" "Resources" (by decide) (by decide)
    (by decide) (by decide) (by decide) (by decide) (by decide)

/-! ## Tag round trip through the whole pipeline -/

/-- Attach an application tag to a node (the tagged variants of the
three shapes). -/
def setTag (t : String) : YNode → YNode
  | .scalar _ q s => .scalar (some t) q s
  | .seq _ xs => .seq (some t) xs
  | .ymap _ es => .ymap (some t) es

/-- The payload `_construct_tagged` builds for each node shape. -/
def corePayload : YNode → PyObj
  | .scalar _ _ s => .pystr s
  | .seq _ xs => .pylist (constructList xs)
  | .ymap _ es => .pydict (constructMapping es [])

theorem construct_setTag (t : String) (n : YNode) :
    construct (setTag t n) = .tagged t (corePayload n) := by
  cases n <;> simp [setTag, construct, corePayload]

theorem wf_corePayload (t : String) (n : YNode) :
    wf (.tagged t (corePayload n)) = true :=
  construct_setTag t n ▸ wf_construct (setTag t n)

/-- C6: a value carrying a custom tag (`!...`) and shaped as a scalar, a
sequence or a mapping survives the whole pipeline — load, merge with an
empty fragment list, serialize, load again — as an equivalent Tagged
node: the produced document holds exactly the Tagged value with the same
tag and the recursively constructed payload (nested Tagged nodes
included), and reloading the written output reproduces it exactly. -/
theorem claim6_tag_roundtrip (t : String) (n : YNode)
    (ht : t.toList.head? = some '!') :
    ∃ out, merge_templates "base.yaml"
        (some (.ymap none [("Item", setTag t n)])) [] = .ok out ∧
      _load_yaml "out.yaml" (some out) =
        .ok [("Item", .tagged t (corePayload n))] ∧
      construct (setTag t n) = .tagged t (corePayload n) := by
  have hload : _load_yaml "base.yaml"
      (some (.ymap none [("Item", setTag t n)])) =
      .ok [("Item", .tagged t (corePayload n))] := by
    simp [_load_yaml, construct, constructMapping, alSet, construct_setTag,
      pyTruthy]
  refine ⟨represent false (.pydict [("Item", .tagged t (corePayload n))]),
    merge_templates_nil _ _ _ hload, ?_, construct_setTag t n⟩
  exact load_represented "out.yaml" _ rfl
    (by simp [wfEntries, wf_corePayload t n])

/-- Witness for C6: a `!Ref`-tagged scalar. -/
theorem claim6_witness :
    ∃ out, merge_templates "base.yaml"
        (some (.ymap none
          [("Item", setTag "!Ref" (.scalar none false "Bk"))])) [] = .ok out ∧
      _load_yaml "out.yaml" (some out) =
        .ok [("Item", .tagged "!Ref"
          (corePayload (.scalar none false "Bk")))] ∧
      construct (setTag "!Ref" (.scalar none false "Bk")) =
        .tagged "!Ref" (corePayload (.scalar none false "Bk")) :=
  claim6_tag_roundtrip "!Ref" (.scalar none false "Bk") (by decide)

/-- C7: non-section top-level keys are pass-through from the base only:
the merge result is identical for any two fragment lists that agree on
the four sections (whatever other top-level keys the fragments carry are
never consulted and cause no error), and on success every non-section
top-level key of the merged document has exactly the base's value. -/
theorem claim7_passthrough (base : PyDict)
    (frags frags' : List (String × PyDict))
    (hsame : sameFrags frags frags') :
    mergeAll base frags = mergeAll base frags' ∧
    (∀ m, mergeAll base frags = .ok m →
      ∀ k, ¬ k ∈ sections → alGet m k = alGet base k) :=
  ⟨mergeAll_congr frags frags' hsame base,
    fun m hm k hk => mergeAll_preserves frags base m hm k hk⟩

/-- Witness for C7: a fragment carrying an extra non-section key merges
exactly like the fragment without it, and the base's non-section key
keeps its value. -/
theorem claim7_witness :
    mergeAll [("Top", PyObj.pystr "t")]
        [("f1", [("Extra", PyObj.pystr "e"),
                 ("Resources", PyObj.pydict [("B", PyObj.pystr "y")])])] =
      mergeAll [("Top", PyObj.pystr "t")]
        [("f1", [("Resources", PyObj.pydict [("B", PyObj.pystr "y")])])] ∧
    (∀ m, mergeAll [("Top", PyObj.pystr "t")]
        [("f1", [("Extra", PyObj.pystr "e"),
                 ("Resources", PyObj.pydict [("B", PyObj.pystr "y")])])] =
          .ok m →
      ∀ k, ¬ k ∈ sections → alGet m k = alGet [("Top", PyObj.pystr "t")] k) :=
  claim7_passthrough _ _ _
    ⟨rfl, fun s hs => by fin_cases hs <;> rfl, trivial⟩

/-- C8: failure atomicity of the pipeline — an output document exists
exactly when the base loaded, every fragment loaded, and the full merge
of all fragments succeeded, and that output is precisely the serializer
applied to the completely merged document.  Any LoadError,
SectionTypeError or DuplicateKeyError anywhere therefore aborts the run
with no document ever handed to the serializer. -/
theorem claim8_failure_atomicity (bp : String) (bn : Option YNode)
    (frags : List (String × Option YNode)) :
    ∀ out, merge_templates bp bn frags = .ok out ↔
      ∃ B Fs m, _load_yaml bp bn = .ok B ∧ loadFrags frags = .ok Fs ∧
        mergeAll B Fs = .ok m ∧ out = represent false (.pydict m) := by
  intro out
  cases hb : _load_yaml bp bn with
  | error e =>
    have hmt : merge_templates bp bn frags = .error e := by
      unfold merge_templates
      rw [hb]
    rw [hmt]
    constructor
    · intro h
      cases h
    · rintro ⟨B, Fs, m, hB, _, _, _⟩
      cases hB
  | ok B =>
    have hmt1 : merge_templates bp bn frags =
        match mergeLoop B frags with
        | .error e => .error e
        | .ok merged => .ok (represent false (.pydict merged)) := by
      unfold merge_templates
      rw [hb]
    cases hl : mergeLoop B frags with
    | error e =>
      have hmt : merge_templates bp bn frags = .error e := by
        rw [hmt1, hl]
      rw [hmt]
      constructor
      · intro h
        cases h
      · rintro ⟨B', Fs, m, hB', hFs, hma, _⟩
        injection hB' with hBB
        subst hBB
        have h2 := (mergeLoop_eq_loadFrags frags B m).mpr ⟨Fs, hFs, hma⟩
        rw [hl] at h2
        cases h2
    | ok merged =>
      have hmt : merge_templates bp bn frags =
          .ok (represent false (.pydict merged)) := by
        rw [hmt1, hl]
      rw [hmt]
      constructor
      · intro h
        injection h with h
        obtain ⟨Fs, hFs, hma⟩ := (mergeLoop_eq_loadFrags frags B merged).mp hl
        exact ⟨B, Fs, merged, rfl, hFs, hma, h.symm⟩
      · rintro ⟨B', Fs, m, hB', hFs, hma, hout⟩
        injection hB' with hBB
        subst hBB
        have h2 := (mergeLoop_eq_loadFrags frags B m).mpr ⟨Fs, hFs, hma⟩
        rw [hl] at h2
        injection h2 with h2
        rw [hout, h2]

/-- Witness for C8 at a concrete pipeline run. -/
theorem claim8_witness :
    merge_templates "b.yaml" (some (.ymap none [("Outputs", .ymap none [])]))
        [("f.yaml", some (.ymap none []))] =
        .ok (represent false (.pydict [("Outputs", PyObj.pydict [])])) ↔
      ∃ B Fs m, _load_yaml "b.yaml"
          (some (.ymap none [("Outputs", .ymap none [])])) = .ok B ∧
        loadFrags [("f.yaml", some (.ymap none []))] = .ok Fs ∧
        mergeAll B Fs = .ok m ∧
        represent false (.pydict [("Outputs", PyObj.pydict [])]) =
          represent false (.pydict m) :=
  claim8_failure_atomicity "b.yaml" _ _ _

/-- C9: merging a base with the empty fragment list is the identity —
the pipeline succeeds, the serializer receives exactly the loaded base
document, and reloading the written output reproduces that document
bit-for-bit (all four sections, all other keys, and all tags). -/
theorem claim9_identity (p q : String) (n : Option YNode) (B : PyDict)
    (h : _load_yaml p n = .ok B) :
    merge_templates p n [] = .ok (represent false (.pydict B)) ∧
    _load_yaml q (some (represent false (.pydict B))) = .ok B := by
  have hwf := load_wf p n B h
  exact ⟨merge_templates_nil p n B h, load_represented q B hwf.1 hwf.2⟩

/-- Witness for C9: a base with a tagged value and a non-section key. -/
theorem claim9_witness :
    merge_templates "b.yaml"
        (some (.ymap none
          [("Description", .scalar none false "demo"),
           ("Resources", .ymap none
             [("A", .scalar (some "!Ref") false "B")])])) [] =
      .ok (represent false (.pydict
        [("Description", PyObj.pystr "demo"),
         ("Resources", PyObj.pydict
           [("A", PyObj.tagged "!Ref" (PyObj.pystr "B"))])])) ∧
    _load_yaml "again.yaml" (some (represent false (.pydict
        [("Description", PyObj.pystr "demo"),
         ("Resources", PyObj.pydict
           [("A", PyObj.tagged "!Ref" (PyObj.pystr "B"))])]))) =
      .ok [("Description", PyObj.pystr "demo"),
           ("Resources", PyObj.pydict
             [("A", PyObj.tagged "!Ref" (PyObj.pystr "B"))])] :=
  claim9_identity "b.yaml" "again.yaml" _ _
    (by simp [_load_yaml, construct, constructMapping, alSet, pyTruthy,
      resolveScalar, specialScalar?, intLit?])

/-! ## Heap lemmas for the reference-semantics model -/

theorem heapGet_set_self : ∀ (h : Heap) (a : Nat) (c : PyDict),
    a < h.length → heapGet (heapSet h a c) a = c
  | [], a, c, ha => by simp at ha
  | x :: h, 0, c, _ => rfl
  | x :: h, a + 1, c, ha =>
    heapGet_set_self h a c (by simpa using ha)

theorem heapSet_set_self : ∀ (h : Heap) (a : Nat) (c c' : PyDict),
    heapSet (heapSet h a c) a c' = heapSet h a c'
  | [], _, _, _ => rfl
  | x :: h, 0, c, c' => rfl
  | x :: h, a + 1, c, c' => by
    simp only [heapSet, List.set_cons_succ]
    rw [show List.set (List.set h a c) a c' = heapSet (heapSet h a c) a c'
        from rfl, heapSet_set_self h a c c']
    rfl

theorem heapSet_length (h : Heap) (a : Nat) (c : PyDict) :
    (heapSet h a c).length = h.length := by
  simp [heapSet]

theorem heapSet_get_self : ∀ (h : Heap) (a : Nat), a < h.length →
    heapSet h a (heapGet h a) = h
  | x :: h, 0, _ => rfl
  | x :: h, a + 1, ha => by
    simp only [heapSet, heapGet, List.set_cons_succ]
    rw [show List.set h a ((x :: h).getD (a + 1) []) =
        heapSet h a (heapGet h a) from rfl,
      heapSet_get_self h a (by simpa using ha)]

theorem mergeItemsHeap_ok (sect path : String) :
    ∀ (items : List (String × PyObj)) (dest : HDoc) (heap : Heap)
      (a : Nat) (d : PyDict),
      alGet dest sect = some (.href a) → a < heap.length →
      heapGet heap a = d →
      disjb (alKeys items) (alKeys d) = true →
      nodupb (alKeys items) = true →
      mergeItemsHeap dest sect path heap items =
        (.ok dest, heapSet heap a (d ++ items))
  | [], dest, heap, a, d, hget, ha, hd, _, _ => by
    simp only [mergeItemsHeap, List.append_nil]
    rw [← hd, heapSet_get_self heap a ha]
  | (key, item) :: rest, dest, heap, a, d, hget, ha, hd, hdisj, hnd => by
    have hkeys : alKeys ((key, item) :: rest) = key :: alKeys rest := rfl
    rw [hkeys] at hdisj hnd
    simp only [disjb, List.all_cons, Bool.and_eq_true] at hdisj
    obtain ⟨hkd, hrestd⟩ := hdisj
    have hkd' : alHas d key = false := by
      rw [Bool.not_eq_true', memb_eq_false_iff] at hkd
      cases hh : alHas d key
      · rfl
      · rw [alHas_iff_mem_keys] at hh
        exact absurd hh hkd
    simp only [nodupb, Bool.and_eq_true] at hnd
    obtain ⟨hknr, hndr⟩ := hnd
    have hstep : mergeItemsHeap dest sect path heap ((key, item) :: rest) =
        mergeItemsHeap dest sect path
          (heapSet heap a (alSet (heapGet heap a) key item)) rest := by
      simp [mergeItemsHeap, hget, hd, hkd']
    rw [hstep, hd, alSet_of_not_has d key item hkd']
    have hrd : disjb (alKeys rest) (alKeys d) = true := hrestd
    have hdisj' : disjb (alKeys rest) (alKeys (d ++ [(key, item)])) = true := by
      rw [disjb_iff] at hrd ⊢
      intro k hk
      rw [alKeys_append]
      simp only [List.mem_append]
      rintro (hkin | hkin)
      · exact hrd k hk hkin
      · simp [alKeys] at hkin
        rw [Bool.not_eq_true', memb_eq_false_iff] at hknr
        exact hknr (hkin ▸ hk)
    rw [mergeItemsHeap_ok sect path rest dest
      (heapSet heap a (d ++ [(key, item)])) a (d ++ [(key, item)]) hget
      (by rw [heapSet_length]; exact ha)
      (heapGet_set_self heap a _ ha) hdisj' hndr]
    rw [heapSet_set_self, List.append_assoc]
    rfl

theorem alGet_singleton_ne {α : Type} (s s' : String) (v : α) (h : s ≠ s') :
    alGet [(s, v)] s' = none := by
  simp [alGet, h]

theorem mergeSectionsHeap_skip (src : HDoc) (path : String) :
    ∀ (ss : List String) (dest : HDoc) (heap : Heap),
      (∀ s' ∈ ss, alGet src s' = none) →
      mergeSectionsHeap dest src path heap ss = (.ok dest, heap)
  | [], dest, heap, _ => rfl
  | s :: rest, dest, heap, h => by
    have hs := h s (by simp)
    simp only [mergeSectionsHeap, mergeSectionHeap, hs]
    exact mergeSectionsHeap_skip src path rest dest heap
      fun s' hs' => h s' (by simp [hs'])

theorem mergeSectionsHeap_single (src : HDoc) (path : String)
    (s : String) (dest : HDoc) (heap : Heap)
    (pre post : List String)
    (hpre : ∀ s' ∈ pre, alGet src s' = none)
    (hpost : ∀ s' ∈ post, alGet src s' = none) :
    mergeSectionsHeap dest src path heap (pre ++ s :: post) =
      match mergeSectionHeap dest src s path heap with
      | (.ok d', h') => mergeSectionsHeap d' src path h' post
      | (.error e, h') => (.error e, h') := by
  induction pre generalizing dest heap with
  | nil =>
    simp only [List.nil_append, mergeSectionsHeap]
  | cons q pre ih =>
    have hq := hpre q (by simp)
    simp only [List.cons_append, mergeSectionsHeap, mergeSectionHeap, hq]
    exact ih dest heap (fun s' hs' => hpre s' (by simp [hs']))

/-- C10: because `merged = dict(base)` is only a shallow copy, the merge
inserts fragment items directly into the heap cell holding the base's
own section dict.  For a base with a non-empty section `s` (cell `a`
holding `d`), merging a first fragment that contributes `items1` to `s`
and a second fragment whose first `s`-item collides leaves the run in an
error state whose final heap has cell `a` = `d ++ items1`: the caller's
base document still points at cell `a`, so the base tree has been
mutated in place by the successfully processed first fragment, and the
error does not restore it. -/
theorem claim10_shallow_copy_mutation (heap : Heap) (base : HDoc)
    (s p1 p2 : String) (a aF1 aF2 : Nat) (d items1 : PyDict)
    (k : String) (v : PyObj) (rest2 : List (String × PyObj))
    (hs : s ∈ sections)
    (hbase : alGet base s = some (.href a))
    (ha : a < heap.length)
    (hd : heapGet heap a = d) (hdne : d ≠ [])
    (haF1 : heapGet heap aF1 = items1) (hne1 : items1 ≠ [])
    (ha1 : aF1 ≠ a)
    (hnd1 : nodupb (alKeys items1) = true)
    (hdisj1 : disjb (alKeys items1) (alKeys d) = true)
    (haF2 : heapGet (heapSet heap a (d ++ items1)) aF2 = (k, v) :: rest2)
    (hk : alHas (d ++ items1) k = true) :
    mergeFragsHeap base heap
        [(p1, [(s, HVal.href aF1)]), (p2, [(s, HVal.href aF2)])] =
      (.error (.valueError (duplicateKeyMsg s k p2)),
        heapSet heap a (d ++ items1)) ∧
    heapGet (heapSet heap a (d ++ items1)) a = d ++ items1 ∧
    d ++ items1 ≠ d ∧
    alGet base s = some (.href a) := by
  have hhas : alHas base s = true := by simp [alHas, hbase]
  obtain ⟨pre, post, hsplit, hpre, hpost⟩ :
      ∃ pre post, sections = pre ++ s :: post ∧
        (∀ s' ∈ pre, s' ≠ s) ∧ (∀ s' ∈ post, s' ≠ s) := by
    fin_cases hs
    · exact ⟨[], ["Conditions", "Resources", "Outputs"], rfl,
        by decide, by decide⟩
    · exact ⟨["Parameters"], ["Resources", "Outputs"], rfl,
        by decide, by decide⟩
    · exact ⟨["Parameters", "Conditions"], ["Outputs"], rfl,
        by decide, by decide⟩
    · exact ⟨["Parameters", "Conditions", "Resources"], [], rfl,
        by decide, by decide⟩
  have hones : ∀ (aF : Nat) (s' : String), s' ≠ s →
      alGet [(s, HVal.href aF)] s' = none := by
    intro aF s' hne
    exact alGet_singleton_ne s s' _ (Ne.symm hne)
  -- the first fragment merges cleanly, mutating cell `a`
  have hsec1 : mergeSectionHeap base [(s, HVal.href aF1)] s p1 heap =
      (.ok base, heapSet heap a (d ++ items1)) := by
    have hget1 : alGet [(s, HVal.href aF1)] s = some (.href aF1) := by
      simp [alGet]
    simp only [mergeSectionHeap, hget1, hhas, if_pos]
    rw [haF1]
    exact mergeItemsHeap_ok s p1 items1 base heap a d hbase ha hd hdisj1 hnd1
  have hrun1 : mergeSectionsHeap base [(s, HVal.href aF1)] p1 heap sections =
      (.ok base, heapSet heap a (d ++ items1)) := by
    rw [hsplit, mergeSectionsHeap_single _ _ _ _ _ _ _
      (fun s' hs' => hones aF1 s' (hpre s' hs'))
      (fun s' hs' => hones aF1 s' (hpost s' hs')), hsec1]
    exact mergeSectionsHeap_skip _ p1 post base _
      (fun s' hs' => hones aF1 s' (hpost s' hs'))
  -- the second fragment hits the duplicate and aborts
  have hsec2 : mergeSectionHeap base [(s, HVal.href aF2)] s p2
      (heapSet heap a (d ++ items1)) =
      (.error (.valueError (duplicateKeyMsg s k p2)),
        heapSet heap a (d ++ items1)) := by
    have hget2 : alGet [(s, HVal.href aF2)] s = some (.href aF2) := by
      simp [alGet]
    simp only [mergeSectionHeap, hget2, hhas, if_pos]
    rw [haF2]
    simp [mergeItemsHeap, hbase,
      heapGet_set_self heap a (d ++ items1) ha, hk]
  have hrun2 : mergeSectionsHeap base [(s, HVal.href aF2)] p2
      (heapSet heap a (d ++ items1)) sections =
      (.error (.valueError (duplicateKeyMsg s k p2)),
        heapSet heap a (d ++ items1)) := by
    rw [hsplit, mergeSectionsHeap_single _ _ _ _ _ _ _
      (fun s' hs' => hones aF2 s' (hpre s' hs'))
      (fun s' hs' => hones aF2 s' (hpost s' hs')), hsec2]
  refine ⟨?_, heapGet_set_self heap a _ (by simpa using ha), ?_, hbase⟩
  · simp only [mergeFragsHeap, hrun1, hrun2]
  · intro hcontra
    have hlen := congrArg List.length hcontra
    rw [List.length_append] at hlen
    have : items1.length = 0 := by omega
    exact hne1 (List.length_eq_zero.mp this)

/-- Witness for C10: base's `Resources` dict lives at cell 0; fragment 1
(cell 1) inserts `B`, fragment 2 (cell 2) collides on `A`; the run ends
in the duplicate-key error with cell 0 mutated to hold `A` and `B`. -/
theorem claim10_witness :
    mergeFragsHeap [("Resources", HVal.href 0)]
        [[("A", PyObj.pystr "1")], [("B", PyObj.pystr "2")],
         [("A", PyObj.pystr "3")]]
        [("f1", [("Resources", HVal.href 1)]),
         ("f2", [("Resources", HVal.href 2)])] =
      (.error (.valueError (duplicateKeyMsg "Resources" "A" "f2")),
        heapSet [[("A", PyObj.pystr "1")], [("B", PyObj.pystr "2")],
          [("A", PyObj.pystr "3")]] 0
          ([("A", PyObj.pystr "1")] ++ [("B", PyObj.pystr "2")])) ∧
    heapGet (heapSet [[("A", PyObj.pystr "1")], [("B", PyObj.pystr "2")],
        [("A", PyObj.pystr "3")]] 0
        ([("A", PyObj.pystr "1")] ++ [("B", PyObj.pystr "2")])) 0 =
      [("A", PyObj.pystr "1")] ++ [("B", PyObj.pystr "2")] ∧
    [("A", PyObj.pystr "1")] ++ [("B", PyObj.pystr "2")] ≠
      [("A", PyObj.pystr "1")] ∧
    alGet [("Resources", HVal.href 0)] "Resources" = some (HVal.href 0) :=
  claim10_shallow_copy_mutation
    [[("A", PyObj.pystr "1")], [("B", PyObj.pystr "2")],
     [("A", PyObj.pystr "3")]]
    [("Resources", HVal.href 0)]
    "Resources" "f1" "f2" 0 1 2
    [("A", PyObj.pystr "1")] [("B", PyObj.pystr "2")]
    "A" (PyObj.pystr "3") []
    (by decide) rfl (by decide) rfl (by simp) rfl (by simp)
    (by decide) (by decide) (by decide) rfl (by decide)
